import Mathlib

/-!
Verification development for the discord-radio collection-and-synthesis
pipeline (`src/scripts/generate-radio.js`, plus the earlier variant kept as
`src/unnamed/part_000`).  JavaScript strings are embedded as `List Char`,
instants and durations as `Int` milliseconds, byte buffers as `List Nat`.
Network and DOM effects are passed in explicitly as data (responses,
parse results), so every function of the source becomes a total Lean
function of its inputs plus the relevant part of the outside world.
-/

namespace DiscordRadio

/-! ## JavaScript string primitives -/

/-- Whitespace class used to model the JS `\s` regex class and `trim`
(restricted to the ASCII whitespace characters that occur in this code). -/
def jsIsWs (c : Char) : Bool :=
  c = ' ' ∨ c = '\t' ∨ c = '\n' ∨ c = '\r' ∨ c = '\x0b' ∨ c = '\x0c'

/-- Model of JS `String.prototype.trim`. -/
def jsTrim (s : List Char) : List Char :=
  ((s.dropWhile jsIsWs).reverse.dropWhile jsIsWs).reverse

/-- Helper of `collapseWs`; the flag records whether the previous
character was whitespace (so the run's single space is already written). -/
def collapseWsAux : Bool → List Char → List Char
  | _, [] => []
  | inRun, c :: rest =>
    if jsIsWs c then
      if inRun then collapseWsAux true rest
      else ' ' :: collapseWsAux true rest
    else c :: collapseWsAux false rest

/-- Model of `.replace(/\s+/g, ' ')`: collapse every whitespace run to one space. -/
def collapseWs (s : List Char) : List Char := collapseWsAux false s

/-- Decidable check that `p` is a contiguous substring of `s`
(models JS `String.prototype.includes`). -/
def listContainsSub (s p : List Char) : Bool :=
  (List.range (s.length + 1)).any fun i => p.isPrefixOf (s.drop i)

/-- Decidable check that `s` ends with `p` (models JS `String.prototype.endsWith`). -/
def listEndsWith (s p : List Char) : Bool :=
  p.reverse.isPrefixOf s.reverse

/-- Model of JS `String.prototype.toLowerCase`, restricted to ASCII letters
(the hosts this pipeline handles are ASCII). -/
def asciiLower (c : Char) : Char :=
  if 'A' ≤ c ∧ c ≤ 'Z' then Char.ofNat (c.toNat + 32) else c

def lowerStr (s : List Char) : List Char := s.map asciiLower

/-- First-appearance deduplication, the order-preserving behaviour of
`Array.from(new Set(xs))` in JS. -/
def dedupFirst : List (List Char) → List (List Char)
  | [] => []
  | x :: xs => x :: (dedupFirst xs).filter (· ≠ x)

/-! ## URL model

The source manipulates URLs through the WHATWG `URL` platform class.  We
model that class for `http:`/`https:` URLs: a record of scheme, host
(including any port), path, parsed query pairs and optional fragment,
with a parser and serializer.  Simplifications relative to the full URL
Standard (they do not affect the claims): no percent-encoding
normalization, no punycode/IPv6 handling, no default-port elision, and
the scheme/host are not lower-cased at parse time (the source lower-cases
the host itself). -/

structure UrlRec where
  scheme : List Char
  host : List Char
  path : List Char
  query : List (List Char × List Char)
  frag : Option (List Char)
  deriving DecidableEq, Repr

/-- Split a character list at every `&`. -/
def splitOnAmp : List Char → List (List Char)
  | [] => [[]]
  | c :: rest =>
    if c = '&' then [] :: splitOnAmp rest
    else
      match splitOnAmp rest with
      | p :: ps => (c :: p) :: ps
      | [] => [[c]]

/-- Split a query string on `&`, keeping nonempty pieces
(the behaviour of `URLSearchParams` parsing). -/
def querySplit (s : List Char) : List (List Char) :=
  (splitOnAmp s).filter (· ≠ [])

/-- Split one `key=value` piece at the first `=`. -/
def queryPair (piece : List Char) : List Char × List Char :=
  let k := piece.takeWhile (· ≠ '=')
  let rest := piece.drop k.length
  (k, rest.drop 1)

def parseQuery (s : List Char) : List (List Char × List Char) :=
  (querySplit s).map queryPair

def serializeQuery (q : List (List Char × List Char)) : List Char :=
  match q with
  | [] => []
  | p :: rest => (rest.foldl (fun acc kv => acc ++ '&' :: kv.1 ++ '=' :: kv.2)
      (p.1 ++ '=' :: p.2))

/-- Characters that end the host component. -/
def hostEnd (c : Char) : Bool := c = '/' ∨ c = '?' ∨ c = '#'

/-- Characters that end the path component. -/
def pathEnd (c : Char) : Bool := c = '?' ∨ c = '#'

/-- Parser for `http(s)://host[/path][?query][#fragment]`.  Returns `none`
exactly when the platform `new URL(raw)` constructor would throw for the
URLs in this model's scope (no `http(s)` scheme, or an empty host). -/
def parseUrl (s : List Char) : Option UrlRec :=
  let afterScheme : Option (List Char × List Char) :=
    if ('h' :: 't' :: 't' :: 'p' :: 's' :: ':' :: '/' :: '/' :: []).isPrefixOf s then
      some (['h', 't', 't', 'p', 's'], s.drop 8)
    else if ('h' :: 't' :: 't' :: 'p' :: ':' :: '/' :: '/' :: []).isPrefixOf s then
      some (['h', 't', 't', 'p'], s.drop 7)
    else none
  match afterScheme with
  | none => none
  | some (scheme, rest) =>
    let host := rest.takeWhile (fun c => !hostEnd c)
    if host = [] then none
    else
      let rest1 := rest.drop host.length
      let path := rest1.takeWhile (fun c => !pathEnd c)
      let rest2 := rest1.drop path.length
      let path := if path = [] then ['/'] else path
      let qs := match rest2 with
        | '?' :: r => r.takeWhile (fun c => !(c == '#'))
        | _ => []
      let rest3 := match rest2 with
        | '?' :: r => r.drop qs.length
        | r => r
      let frag := match rest3 with
        | '#' :: f => some f
        | _ => none
      some ⟨scheme, host, path, parseQuery qs, frag⟩

def serializeUrl (u : UrlRec) : List Char :=
  u.scheme ++ ':' :: '/' :: '/' :: u.host ++ u.path ++
  (match u.query with
   | [] => []
   | q => '?' :: serializeQuery q) ++
  (match u.frag with
   | none => []
   | some f => '#' :: f)

/-- Fixed deny-list of tracking query parameters (`paramsToRemove`). -/
def paramsToRemove : List (List Char) :=
  [['u','t','m','_','s','o','u','r','c','e'],
   ['u','t','m','_','m','e','d','i','u','m'],
   ['u','t','m','_','c','a','m','p','a','i','g','n'],
   ['u','t','m','_','t','e','r','m'],
   ['u','t','m','_','c','o','n','t','e','n','t'],
   ['g','c','l','i','d'],
   ['f','b','c','l','i','d']]

/-- Model of `url.searchParams.delete(key)`: remove every pair with that key. -/
def deleteParam (q : List (List Char × List Char)) (k : List Char) :
    List (List Char × List Char) :=
  q.filter (·.1 ≠ k)

/-- Embedding of `normalizeUrl` (generate-radio.js:141-164, identical in
part_000:135-158): parse, drop the fragment, delete the tracking
parameters, strip one trailing slash from a non-root path, lower-case the
host, serialize; on parse failure return the input unchanged. -/
def normalizeUrl (rawUrl : List Char) : List Char :=
  match parseUrl rawUrl with
  | none => rawUrl
  | some url =>
    let url := { url with frag := none }
    let url := { url with query := paramsToRemove.foldl deleteParam url.query }
    let pathname := url.path
    let pathname :=
      if listEndsWith pathname ['/'] ∧ pathname.length > 1 then
        pathname.dropLast
      else pathname
    let url := { url with path := pathname }
    let url := { url with host := lowerStr url.host }
    serializeUrl url

/-- Embedding of `isXStatusUrl` (generate-radio.js:166-174). -/
def isXStatusUrl (rawUrl : List Char) : Bool :=
  match parseUrl rawUrl with
  | none => false
  | some u =>
    let host := lowerStr u.host
    (listEndsWith host ['x','.','c','o','m'] ∨
     listEndsWith host ['t','w','i','t','t','e','r','.','c','o','m']) ∧
    listContainsSub u.path ['/','s','t','a','t','u','s','/']

/-! ## Time model

The source computes the window boundary through the JS `Date` API
(`getUTCFullYear/Month/Date/Hours` and `Date.UTC`).  We embed those
operations as ECMA-262 defines them: `DayFromYear` is the closed leap-year
formula, `YearFromTime` is the year `y` with
`dayFromYear y ≤ Day(t) < dayFromYear (y+1)` (implemented by a bounded
search), month/date come from the day within the year, and `Date.UTC`
is `MakeDay`/`MakeTime`.  Instants are `Int` milliseconds since the epoch;
JS `Math.floor`-style division is Lean's `Int` `/` (floor for positive
divisors). -/

def msPerDay : Int := 86400000

def msPerHour : Int := 3600000

/-- ECMA-262 leap-year predicate (`DaysInYear(y) = 366`). -/
def isLeapYear (y : Int) : Prop := (y % 4 = 0 ∧ y % 100 ≠ 0) ∨ y % 400 = 0

instance (y : Int) : Decidable (isLeapYear y) := by
  unfold isLeapYear; infer_instance

def leapBit (y : Int) : Int := if isLeapYear y then 1 else 0

/-- ECMA-262 `DayFromYear`. -/
def dayFromYear (y : Int) : Int :=
  365 * (y - 1970) + (y - 1969) / 4 - (y - 1901) / 100 + (y - 1601) / 400

/-- Upward search for the year containing day `d` (used below to realise
ECMA-262 `YearFromTime`, which is specified declaratively). -/
def findYearFwd : Nat → Int → Int → Int
  | 0, y, _ => y
  | n + 1, y, d => if d < dayFromYear (y + 1) then y else findYearFwd n (y + 1) d

/-- Downward search for the year containing a pre-epoch day `d`. -/
def findYearBwd : Nat → Int → Int → Int
  | 0, y, _ => y
  | n + 1, y, d => if dayFromYear y ≤ d then y else findYearBwd n (y - 1) d

/-- ECMA-262 `YearFromTime` on a day number: the unique `y` with
`dayFromYear y ≤ d < dayFromYear (y + 1)`. -/
def yearFromDay (d : Int) : Int :=
  if 0 ≤ d then findYearFwd (d.toNat / 365 + 1) 1970 d
  else findYearBwd ((-d).toNat / 365 + 1) 1970 d

/-- ECMA-262 `Day(t)`. -/
def dayNumber (t : Int) : Int := t / msPerDay

def yearFromTime (t : Int) : Int := yearFromDay (dayNumber t)

/-- ECMA-262 `DayWithinYear(t)`. -/
def dayWithinYear (t : Int) : Int := dayNumber t - dayFromYear (yearFromTime t)

/-- ECMA-262 `MonthFromTime` as a function of the leap bit `L` and the
day within the year `d`. -/
def monthFor (L d : Int) : Int :=
  if d < 31 then 0
  else if d < 59 + L then 1
  else if d < 90 + L then 2
  else if d < 120 + L then 3
  else if d < 151 + L then 4
  else if d < 181 + L then 5
  else if d < 212 + L then 6
  else if d < 243 + L then 7
  else if d < 273 + L then 8
  else if d < 304 + L then 9
  else if d < 334 + L then 10
  else 11

/-- ECMA-262 `DateFromTime` as a function of the leap bit and day within year. -/
def dateFor (L d : Int) : Int :=
  if d < 31 then d + 1
  else if d < 59 + L then d - 30
  else if d < 90 + L then d - 58 - L
  else if d < 120 + L then d - 89 - L
  else if d < 151 + L then d - 119 - L
  else if d < 181 + L then d - 150 - L
  else if d < 212 + L then d - 180 - L
  else if d < 243 + L then d - 211 - L
  else if d < 273 + L then d - 242 - L
  else if d < 304 + L then d - 272 - L
  else if d < 334 + L then d - 303 - L
  else d - 333 - L

def monthFromTime (t : Int) : Int :=
  monthFor (leapBit (yearFromTime t)) (dayWithinYear t)

def dateFromTime (t : Int) : Int :=
  dateFor (leapBit (yearFromTime t)) (dayWithinYear t)

/-- ECMA-262 `HourFromTime`. -/
def hourFromTime (t : Int) : Int := (t / msPerHour) % 24

/-- Days before the start of (0-based) month `m`, leap bit `L`. -/
def monthStartDays (L m : Int) : Int :=
  if m = 0 then 0
  else if m = 1 then 31
  else if m = 2 then 59 + L
  else if m = 3 then 90 + L
  else if m = 4 then 120 + L
  else if m = 5 then 151 + L
  else if m = 6 then 181 + L
  else if m = 7 then 212 + L
  else if m = 8 then 243 + L
  else if m = 9 then 273 + L
  else if m = 10 then 304 + L
  else 334 + L

/-- ECMA-262 `MakeDay(y, m, date)` for integral arguments. -/
def makeDay (y m date : Int) : Int :=
  dayFromYear (y + m / 12) + monthStartDays (leapBit (y + m / 12)) (m % 12) + date - 1

/-- ECMA-262 `Date.UTC(y, m, d, h, 0, 0, 0)`. -/
def dateUTC (y m d h : Int) : Int := makeDay y m d * msPerDay + h * msPerHour

/-- Embedding of `getDefaultJstEndUtcNow` (generate-radio.js:100-117):
shift "now" to JST, read its civil fields, rebuild 04:00 JST of that civil
day, step back a day when the JST hour is before 4, and shift back to UTC. -/
def getDefaultJstEndUtcNow (nowMs : Int) : Int :=
  let nowJstMs := nowMs + 9 * 60 * 60 * 1000
  let year := yearFromTime nowJstMs
  let month := monthFromTime nowJstMs
  let day := dateFromTime nowJstMs
  let hours := hourFromTime nowJstMs
  let endJstBase := dateUTC year month day 4
  let endJstBase :=
    if hours < 4 then endJstBase - 24 * 60 * 60 * 1000 else endJstBase
  endJstBase - 9 * 60 * 60 * 1000

/-- Window computation of `main` (generate-radio.js:620-621):
`start = end - 24h`. -/
def jstWindow (nowMs : Int) : Int × Int :=
  let endUtc := getDefaultJstEndUtcNow nowMs
  (endUtc - 24 * 60 * 60 * 1000, endUtc)

/-! ### Calendar lemmas -/

theorem dayFromYear_succ (y : Int) :
    dayFromYear (y + 1) = dayFromYear y + 365 + leapBit y := by
  unfold dayFromYear leapBit isLeapYear
  split <;> omega

theorem dayFromYear_step (y : Int) : dayFromYear y + 365 ≤ dayFromYear (y + 1) := by
  have h := dayFromYear_succ y
  unfold leapBit at h
  split at h <;> omega

theorem dayFromYear_fwd_bound (k : Nat) :
    365 * (k : Int) ≤ dayFromYear (1970 + k) := by
  induction k with
  | zero => norm_num [dayFromYear]
  | succ n ih =>
    have h := dayFromYear_step (1970 + (n : Int))
    have harg : (1970 : Int) + ((n : Int) + 1) = 1970 + (n : Int) + 1 := by ring
    push_cast
    rw [harg]
    push_cast at ih
    omega

theorem dayFromYear_bwd_bound (k : Nat) :
    dayFromYear (1970 - k) ≤ -365 * (k : Int) := by
  induction k with
  | zero => norm_num [dayFromYear]
  | succ n ih =>
    have h := dayFromYear_step (1970 - ((n : Int) + 1))
    have harg : (1970 : Int) - ((n : Int) + 1) + 1 = 1970 - (n : Int) := by ring
    rw [harg] at h
    push_cast
    push_cast at ih
    omega

theorem findYearFwd_spec (n : Nat) :
    ∀ y d : Int, dayFromYear y ≤ d → d < dayFromYear (y + n + 1) →
      dayFromYear (findYearFwd n y d) ≤ d ∧ d < dayFromYear (findYearFwd n y d + 1) := by
  induction n with
  | zero =>
    intro y d h1 h2
    simpa [findYearFwd] using ⟨h1, by simpa using h2⟩
  | succ n ih =>
    intro y d h1 h2
    unfold findYearFwd
    split
    · exact ⟨h1, by assumption⟩
    · rename_i hlt
      have h1' : dayFromYear (y + 1) ≤ d := by omega
      have harg : y + 1 + n + 1 = y + (n + 1 : Nat) + 1 := by push_cast; ring
      have h2' : d < dayFromYear (y + 1 + n + 1) := by rw [harg]; exact h2
      exact ih (y + 1) d h1' h2'

theorem findYearBwd_spec (n : Nat) :
    ∀ y d : Int, d < dayFromYear (y + 1) → dayFromYear (y - n) ≤ d →
      dayFromYear (findYearBwd n y d) ≤ d ∧ d < dayFromYear (findYearBwd n y d + 1) := by
  induction n with
  | zero =>
    intro y d h1 h2
    simpa [findYearBwd] using ⟨by simpa using h2, h1⟩
  | succ n ih =>
    intro y d h1 h2
    unfold findYearBwd
    split
    · exact ⟨by assumption, h1⟩
    · rename_i hle
      have h1' : d < dayFromYear (y - 1 + 1) := by
        have : y - 1 + 1 = y := by ring
        rw [this]; omega
      have harg : y - 1 - n = y - (n + 1 : Nat) := by push_cast; ring
      have h2' : dayFromYear (y - 1 - n) ≤ d := by rw [harg]; exact h2
      exact ih (y - 1) d h1' h2'

theorem yearFromDay_char (d : Int) :
    dayFromYear (yearFromDay d) ≤ d ∧ d < dayFromYear (yearFromDay d + 1) := by
  unfold yearFromDay
  split
  · rename_i h0
    apply findYearFwd_spec
    · have h1970 : dayFromYear 1970 = 0 := by norm_num [dayFromYear]
      omega
    · have hb := dayFromYear_fwd_bound (d.toNat / 365 + 1 + 1)
      have harg : (1970 : Int) + ((d.toNat / 365 + 1 : Nat) : Int) + 1
          = 1970 + ((d.toNat / 365 + 1 + 1 : Nat) : Int) := by push_cast; ring
      rw [harg]
      omega
  · rename_i h0
    apply findYearBwd_spec
    · have h1971 : dayFromYear (1970 + 1) = 365 := by norm_num [dayFromYear]
      omega
    · have hb := dayFromYear_bwd_bound ((-d).toNat / 365 + 1)
      omega

theorem monthFor_dateFor_eq (L d : Int) :
    monthStartDays L (monthFor L d) + dateFor L d - 1 = d ∧
    0 ≤ monthFor L d ∧ monthFor L d ≤ 11 := by
  have m0 : monthStartDays L 0 = 0 := rfl
  have m1 : monthStartDays L 1 = 31 := rfl
  have m2 : monthStartDays L 2 = 59 + L := rfl
  have m3 : monthStartDays L 3 = 90 + L := rfl
  have m4 : monthStartDays L 4 = 120 + L := rfl
  have m5 : monthStartDays L 5 = 151 + L := rfl
  have m6 : monthStartDays L 6 = 181 + L := rfl
  have m7 : monthStartDays L 7 = 212 + L := rfl
  have m8 : monthStartDays L 8 = 243 + L := rfl
  have m9 : monthStartDays L 9 = 273 + L := rfl
  have m10 : monthStartDays L 10 = 304 + L := rfl
  have m11 : monthStartDays L 11 = 334 + L := rfl
  simp only [monthFor, dateFor]
  by_cases h1 : d < 31
  · simp only [if_pos h1]
    rw [m0]
    omega
  ·
    by_cases h2 : d < 59 + L
    · simp only [if_pos h2, if_neg h1]
      rw [m1]
      omega
    ·
      by_cases h3 : d < 90 + L
      · simp only [if_pos h3, if_neg h1, if_neg h2]
        rw [m2]
        omega
      ·
        by_cases h4 : d < 120 + L
        · simp only [if_pos h4, if_neg h1, if_neg h2, if_neg h3]
          rw [m3]
          omega
        ·
          by_cases h5 : d < 151 + L
          · simp only [if_pos h5, if_neg h1, if_neg h2, if_neg h3, if_neg h4]
            rw [m4]
            omega
          ·
            by_cases h6 : d < 181 + L
            · simp only [if_pos h6, if_neg h1, if_neg h2, if_neg h3, if_neg h4,
                if_neg h5]
              rw [m5]
              omega
            ·
              by_cases h7 : d < 212 + L
              · simp only [if_pos h7, if_neg h1, if_neg h2, if_neg h3, if_neg h4,
                  if_neg h5, if_neg h6]
                rw [m6]
                omega
              ·
                by_cases h8 : d < 243 + L
                · simp only [if_pos h8, if_neg h1, if_neg h2, if_neg h3, if_neg h4,
                    if_neg h5, if_neg h6, if_neg h7]
                  rw [m7]
                  omega
                ·
                  by_cases h9 : d < 273 + L
                  · simp only [if_pos h9, if_neg h1, if_neg h2, if_neg h3, if_neg h4,
                      if_neg h5, if_neg h6, if_neg h7, if_neg h8]
                    rw [m8]
                    omega
                  ·
                    by_cases h10 : d < 304 + L
                    · simp only [if_pos h10, if_neg h1, if_neg h2, if_neg h3,
                        if_neg h4, if_neg h5, if_neg h6, if_neg h7, if_neg h8,
                        if_neg h9]
                      rw [m9]
                      omega
                    ·
                      by_cases h11 : d < 334 + L
                      · simp only [if_pos h11, if_neg h1, if_neg h2, if_neg h3,
                          if_neg h4, if_neg h5, if_neg h6, if_neg h7, if_neg h8,
                          if_neg h9, if_neg h10]
                        rw [m10]
                        omega
                      · simp only [if_neg h1, if_neg h2, if_neg h3, if_neg h4,
                          if_neg h5, if_neg h6, if_neg h7, if_neg h8, if_neg h9,
                          if_neg h10, if_neg h11]
                        rw [m11]
                        omega

/-- The core calendar inverse: rebuilding `Date.UTC` from the extracted
civil fields recovers the day number. -/
theorem makeDay_roundtrip (t : Int) :
    makeDay (yearFromTime t) (monthFromTime t) (dateFromTime t) = dayNumber t := by
  have hchar := yearFromDay_char (dayNumber t)
  have hy : yearFromTime t = yearFromDay (dayNumber t) := rfl
  rw [← hy] at hchar
  set y := yearFromTime t with hydef
  set dn := dayNumber t with hdndef
  have hdwy : dayWithinYear t = dn - dayFromYear y := rfl
  obtain ⟨heq, hm0, hm11⟩ := monthFor_dateFor_eq (leapBit y) (dayWithinYear t)
  have hmt : monthFromTime t = monthFor (leapBit y) (dayWithinYear t) := rfl
  have hdt : dateFromTime t = dateFor (leapBit y) (dayWithinYear t) := rfl
  unfold makeDay
  rw [hmt, hdt]
  set m := monthFor (leapBit y) (dayWithinYear t) with hmdef
  have h12 : m / 12 = 0 := by omega
  have h12' : m % 12 = m := by omega
  rw [h12, h12', add_zero]
  omega

/-- Closed form: the computed end instant is the floor of "now" to the
04:00-JST grid. -/
theorem getDefaultJstEndUtcNow_closed (nowMs : Int) :
    getDefaultJstEndUtcNow nowMs =
      86400000 * ((nowMs + 18000000) / 86400000) - 18000000 := by
  have hrt := makeDay_roundtrip (nowMs + 9 * 60 * 60 * 1000)
  unfold getDefaultJstEndUtcNow dateUTC hourFromTime
  simp only []
  rw [hrt]
  unfold dayNumber msPerDay msPerHour
  split_ifs <;> omega

/-! ## Discord messages and pagination

A raw Discord message.  The source receives `timestamp` as an ISO-8601
string and always converts it with `new Date(...)` before comparing; we
embed the timestamp directly as the resulting instant in milliseconds.
`msgType` is the API `type` field (0 = default). -/

structure MsgAuthor where
  id : List Char
  username : List Char
  bot : Bool
  deriving DecidableEq, Repr

structure MsgAttachment where
  url : List Char
  deriving DecidableEq, Repr

structure MsgEmbed where
  url : List Char
  title : List Char
  description : List Char
  deriving DecidableEq, Repr

structure RawMsg where
  id : Nat
  timestamp : Int
  msgType : Nat
  author : Option MsgAuthor
  content : List Char
  attachments : List MsgAttachment
  embeds : List MsgEmbed
  deriving DecidableEq, Repr

/-- Stable insertion step for ascending-timestamp sort. -/
def insertAscTs (m : RawMsg) : List RawMsg → List RawMsg
  | [] => [m]
  | y :: ys => if m.timestamp ≤ y.timestamp then m :: y :: ys else y :: insertAscTs m ys

/-- Model of the in-place `page.sort((a, b) => new Date(a.timestamp) -
new Date(b.timestamp))` (a stable ascending sort, as JS `Array.sort` is). -/
def sortAscTs : List RawMsg → List RawMsg
  | [] => []
  | x :: xs => insertAscTs x (sortAscTs xs)

/-- Insertion step for descending-id sort (the message source model). -/
def insertDescId (m : RawMsg) : List RawMsg → List RawMsg
  | [] => [m]
  | y :: ys => if y.id ≤ m.id then m :: y :: ys else y :: insertDescId m ys

def sortDescId : List RawMsg → List RawMsg
  | [] => []
  | x :: xs => insertDescId x (sortDescId xs)

/-- Predicate for the `before` query parameter: Discord returns only
messages with id strictly smaller than the cursor. -/
def matchesBefore (before : Option Nat) (m : RawMsg) : Bool :=
  match before with
  | none => true
  | some b => decide (m.id < b)

/-- Model of the external message source behind
`GET /channels/{id}/messages?limit=100[&before=...]`: up to 100 messages
older than the cursor, newest first. -/
def listPage (hist : List RawMsg) (before : Option Nat) : List RawMsg :=
  (sortDescId (hist.filter (matchesBefore before))).take 100

/-- The messages of a page retained by the window filter
(`ts >= startUtc && ts < endUtc`), in sorted page order. -/
def pageKept (startUtc endUtc : Int) (page : List RawMsg) : List RawMsg :=
  (sortAscTs page).filter fun m =>
    decide (startUtc ≤ m.timestamp) && decide (m.timestamp < endUtc)

/-- Loop body of `fetchChannelMessagesInRange` (generate-radio.js:263-293,
identical in part_000:189-219), with an explicit fuel in place of
`while (true)`; `none` means the fuel ran out before the loop finished.
Each iteration: stop on an empty page; otherwise sort the page by
timestamp, append the in-window messages, then stop if a message older
than the window start was seen or the page was short, else continue with
the cursor `page[0].id` (the oldest message of the sorted page). -/
def fetchGo (hist : List RawMsg) (startUtc endUtc : Int) :
    Nat → Option Nat → List RawMsg → Option (List RawMsg)
  | 0, _, _ => none
  | fuel + 1, before, collected =>
    match (sortAscTs (listPage hist before)).head? with
    | none => some collected
    | some first =>
      if (sortAscTs (listPage hist before)).any
          (fun m => decide (m.timestamp < startUtc)) then
        some (collected ++ pageKept startUtc endUtc (listPage hist before))
      else if (listPage hist before).length < 100 then
        some (collected ++ pageKept startUtc endUtc (listPage hist before))
      else
        fetchGo hist startUtc endUtc fuel (some first.id)
          (collected ++ pageKept startUtc endUtc (listPage hist before))

/-- Embedding of `fetchChannelMessagesInRange`, run with enough fuel for
any finite history (one page per iteration, each page strictly shrinking
the set of messages older than the cursor). -/
def fetchChannelMessagesInRange (hist : List RawMsg) (startUtc endUtc : Int) :
    Option (List RawMsg) :=
  fetchGo hist startUtc endUtc (hist.length + 1) none []

/-! ### Pagination lemmas -/

theorem head?_mem {α} (l : List α) (x : α) (h : l.head? = some x) : x ∈ l := by
  cases l with
  | nil => simp at h
  | cons y ys =>
    simp only [List.head?] at h
    injection h with h
    exact h ▸ List.mem_cons_self y ys

theorem mem_insertAscTs (m x : RawMsg) (l : List RawMsg) :
    x ∈ insertAscTs m l ↔ x = m ∨ x ∈ l := by
  induction l with
  | nil => simp [insertAscTs]
  | cons y ys ih =>
    unfold insertAscTs
    split
    · simp [List.mem_cons]
    · simp only [List.mem_cons, ih]
      tauto

theorem mem_sortAscTs (x : RawMsg) (l : List RawMsg) :
    x ∈ sortAscTs l ↔ x ∈ l := by
  induction l with
  | nil => simp [sortAscTs]
  | cons y ys ih =>
    unfold sortAscTs
    rw [mem_insertAscTs]
    simp only [List.mem_cons, ih]

theorem mem_insertDescId (m x : RawMsg) (l : List RawMsg) :
    x ∈ insertDescId m l ↔ x = m ∨ x ∈ l := by
  induction l with
  | nil => simp [insertDescId]
  | cons y ys ih =>
    unfold insertDescId
    split
    · simp [List.mem_cons]
    · simp only [List.mem_cons, ih]
      tauto

theorem mem_sortDescId (x : RawMsg) (l : List RawMsg) :
    x ∈ sortDescId l ↔ x ∈ l := by
  induction l with
  | nil => simp [sortDescId]
  | cons y ys ih =>
    unfold sortDescId
    rw [mem_insertDescId]
    simp only [List.mem_cons, ih]

theorem mem_listPage (hist : List RawMsg) (before : Option Nat) (m : RawMsg)
    (h : m ∈ listPage hist before) :
    m ∈ hist ∧ matchesBefore before m = true := by
  unfold listPage at h
  have h1 : m ∈ sortDescId (hist.filter (matchesBefore before)) :=
    List.take_subset _ _ h
  rw [mem_sortDescId] at h1
  exact List.mem_filter.mp h1

theorem filter_length_le_of_imp {α} (p q : α → Bool)
    (h : ∀ a, q a = true → p a = true) (l : List α) :
    (l.filter q).length ≤ (l.filter p).length := by
  induction l with
  | nil => simp
  | cons y ys ih =>
    by_cases hq : q y = true
    · have hp := h y hq
      simp [List.filter, hq, hp]
      omega
    · simp only [Bool.not_eq_true] at hq
      by_cases hp : p y = true
      · simp [List.filter, hq, hp]
        omega
      · simp only [Bool.not_eq_true] at hp
        simp [List.filter, hq, hp]
        exact ih

theorem filter_length_lt_of_imp {α} (p q : α → Bool)
    (hpq : ∀ a, q a = true → p a = true) (l : List α) (x : α)
    (hx : x ∈ l) (hp : p x = true) (hq : q x = false) :
    (l.filter q).length < (l.filter p).length := by
  induction l with
  | nil => simp at hx
  | cons y ys ih =>
    rcases List.mem_cons.mp hx with rfl | hx'
    · simp [List.filter, hq, hp]
      have := filter_length_le_of_imp p q hpq ys
      omega
    · by_cases hqy : q y = true
      · have hpy := hpq y hqy
        simp [List.filter, hqy, hpy]
        have := ih hx'
        omega
      · simp only [Bool.not_eq_true] at hqy
        by_cases hpy : p y = true
        · simp [List.filter, hqy, hpy]
          have := ih hx'
          omega
        · simp only [Bool.not_eq_true] at hpy
          simp [List.filter, hqy, hpy]
          exact ih hx'

/-- Number of history messages still reachable behind the cursor: the
termination measure of the pagination loop. -/
def candCount (hist : List RawMsg) (before : Option Nat) : Nat :=
  (hist.filter (matchesBefore before)).length

theorem candCount_decreases (hist : List RawMsg) (before : Option Nat)
    (first : RawMsg)
    (hmem : first ∈ hist) (hbef : matchesBefore before first = true) :
    candCount hist (some first.id) < candCount hist before := by
  unfold candCount
  apply filter_length_lt_of_imp (matchesBefore before) (matchesBefore (some first.id))
    ?_ hist first hmem hbef
  · simp [matchesBefore]
  · intro a ha
    simp only [matchesBefore, decide_eq_true_eq] at ha
    cases before with
    | none => rfl
    | some b =>
      simp only [matchesBefore, decide_eq_true_eq] at hbef ⊢
      omega

theorem fetchGo_spec (hist : List RawMsg) (s e : Int) :
    ∀ (fuel : Nat) (before : Option Nat) (acc : List RawMsg),
      candCount hist before < fuel →
      ∃ res, fetchGo hist s e fuel before acc = some res ∧
        ∀ m ∈ res, m ∈ acc ∨ (s ≤ m.timestamp ∧ m.timestamp < e) := by
  intro fuel
  induction fuel with
  | zero => intro before acc h; exact absurd h (Nat.not_lt_zero _)
  | succ n ih =>
    intro before acc hlt
    have hkept : ∀ m ∈ pageKept s e (listPage hist before),
        s ≤ m.timestamp ∧ m.timestamp < e := by
      intro m hm
      have := (List.mem_filter.mp hm).2
      simp only [Bool.and_eq_true, decide_eq_true_eq] at this
      exact this
    have happend : ∀ m ∈ acc ++ pageKept s e (listPage hist before),
        m ∈ acc ∨ (s ≤ m.timestamp ∧ m.timestamp < e) := by
      intro m hm
      rcases List.mem_append.mp hm with h | h
      · exact Or.inl h
      · exact Or.inr (hkept m h)
    cases hhead : (sortAscTs (listPage hist before)).head? with
    | none =>
      have heq : fetchGo hist s e (n + 1) before acc = some acc := by
        conv_lhs => unfold fetchGo
        rw [hhead]
      exact ⟨acc, heq, fun m hm => Or.inl hm⟩
    | some first =>
      have hfirstPage : first ∈ listPage hist before := by
        have := head?_mem _ _ hhead
        rwa [mem_sortAscTs] at this
      have ⟨hfirstHist, hfirstBef⟩ := mem_listPage hist before first hfirstPage
      by_cases hany : (sortAscTs (listPage hist before)).any
          (fun m => decide (m.timestamp < s)) = true
      · have heq : fetchGo hist s e (n + 1) before acc
            = some (acc ++ pageKept s e (listPage hist before)) := by
          conv_lhs => unfold fetchGo
          rw [hhead]
          simp only [hany, if_true]
        exact ⟨acc ++ pageKept s e (listPage hist before), heq, happend⟩
      · by_cases hlen : (listPage hist before).length < 100
        · have heq : fetchGo hist s e (n + 1) before acc
              = some (acc ++ pageKept s e (listPage hist before)) := by
            conv_lhs => unfold fetchGo
            rw [hhead]
            simp only [hany, if_false, Bool.false_eq_true, if_pos hlen]
          exact ⟨acc ++ pageKept s e (listPage hist before), heq, happend⟩
        · have heq : fetchGo hist s e (n + 1) before acc
              = fetchGo hist s e n (some first.id)
                  (acc ++ pageKept s e (listPage hist before)) := by
            conv_lhs => unfold fetchGo
            rw [hhead]
            simp only [hany, if_false, Bool.false_eq_true, if_neg hlen]
          have hdec := candCount_decreases hist before first hfirstHist hfirstBef
          have hlt' : candCount hist (some first.id) < n := by omega
          obtain ⟨res, hres, hmem⟩ :=
            ih (some first.id) (acc ++ pageKept s e (listPage hist before)) hlt'
          refine ⟨res, heq ▸ hres, ?_⟩
          intro m hm
          rcases hmem m hm with h | h
          · exact happend m h
          · exact Or.inr h

/-! ## URL extraction from message text -/

/-- Character class of the URL regex `[^\s<>()\[\]"']`. -/
def urlChar (c : Char) : Bool :=
  ¬ (jsIsWs c ∨ c = '<' ∨ c = '>' ∨ c = '(' ∨ c = ')' ∨ c = '[' ∨ c = ']' ∨
     c = '"' ∨ c = '\'')

def schemeHttp : List Char := ['h', 't', 't', 'p', ':', '/', '/']

def schemeHttps : List Char := ['h', 't', 't', 'p', 's', ':', '/', '/']

/-- Left-to-right global scan of `/https?:\/\/[^\s<>()\[\]"']+/g`: at each
position, a match is the maximal run of URL characters when it starts with
a scheme and has at least one character after it; scanning resumes after a
match, else one position further. -/
def findUrls : Nat → List Char → List (List Char)
  | 0, _ => []
  | _ + 1, [] => []
  | fuel + 1, c :: rest =>
    let m := (c :: rest).takeWhile urlChar
    if schemeHttps.isPrefixOf m ∧ m.length ≥ 9 then
      m :: findUrls fuel ((c :: rest).drop m.length)
    else if schemeHttp.isPrefixOf m ∧ m.length ≥ 8 then
      m :: findUrls fuel ((c :: rest).drop m.length)
    else
      findUrls fuel rest

/-- Embedding of `extractUrlsFromString` (generate-radio.js:134-139). -/
def extractUrlsFromString (text : List Char) : List (List Char) :=
  findUrls (text.length + 1) text

/-! ## Message filtering and per-channel URL list -/

structure ExtractedMsg where
  id : Nat
  author : Option (List Char × List Char)
  timestamp : Int
  content : List Char
  urls : List (List Char)
  deriving DecidableEq, Repr

/-- Text fragments contributed by one embed (url, title, description,
each pushed when truthy). -/
def embedParts (e : MsgEmbed) : List (List Char) :=
  (if e.url ≠ [] then [e.url] else []) ++
  (if e.title ≠ [] then [e.title] else []) ++
  (if e.description ≠ [] then [e.description] else [])

/-- The `textParts` accumulated for one message: content, attachment urls,
then embed fragments. -/
def msgTextParts (msg : RawMsg) : List (List Char) :=
  (if msg.content ≠ [] then [msg.content] else []) ++
  ((msg.attachments.filter (·.url ≠ [])).map (·.url)) ++
  (msg.embeds.map embedParts).flatten

/-- Embedding of `filterAndExtractFromMessages` (generate-radio.js:370-412):
drop non-default-type and bot messages, join the text parts with newlines,
extract and normalize URLs, and de-duplicate them per message. -/
def filterAndExtractFromMessages (messages : List RawMsg) : List ExtractedMsg :=
  (messages.filter fun m =>
      decide (m.msgType = 0) &&
      !(match m.author with | some a => a.bot | none => false)).map fun msg =>
    { id := msg.id
      author := msg.author.map fun a => (a.id, a.username)
      timestamp := msg.timestamp
      content := msg.content
      urls := dedupFirst
        ((extractUrlsFromString (List.intercalate ['\n'] (msgTextParts msg))).map
          normalizeUrl) }

/-- The URL list handed to article fetching for one channel
(generate-radio.js:674-675): first-appearance de-duplication over all
extracted messages, truncated to `maxArticleCount` before any fetch. -/
def channelArticleUrls (maxArticleCount : Nat) (extracted : List ExtractedMsg) :
    List (List Char) :=
  (dedupFirst (extracted.map (·.urls)).flatten).take maxArticleCount

def insertAscTsE (m : ExtractedMsg) : List ExtractedMsg → List ExtractedMsg
  | [] => [m]
  | y :: ys => if m.timestamp ≤ y.timestamp then m :: y :: ys else y :: insertAscTsE m ys

def sortAscTsE : List ExtractedMsg → List ExtractedMsg
  | [] => []
  | x :: xs => insertAscTsE x (sortAscTsE xs)

/-- Modelled from the spec: "oldest-first truncation of the deduplicated
URL set" — the URL prefix obtained when the extracted messages are first
put in ascending timestamp order.  Used only to compare against the
code's `channelArticleUrls`. -/
def specOldestFirstUrls (maxArticleCount : Nat) (extracted : List ExtractedMsg) :
    List (List Char) :=
  (dedupFirst ((sortAscTsE extracted).map (·.urls)).flatten).take maxArticleCount

/-! ## Article fetching

The network and DOM stages of `fetchArticleContent` are passed in as
data: `XoWorld` is the observable outcome of the oEmbed call (response
ok-ness, and the JSDOM text of the returned embed html), `PageWorld` the
outcome of the page fetch (content type, Readability parse result,
document title, body text).  `none` for either models a rejected fetch /
timeout abort. -/

structure Article where
  url : List Char
  title : Option (List Char)
  text : Option (List Char)
  deriving DecidableEq, Repr

structure XoWorld where
  ok : Bool
  domText : List Char
  authorName : List Char
  deriving DecidableEq, Repr

structure ReadabilityResult where
  title : List Char
  textContent : List Char
  deriving DecidableEq, Repr

structure PageWorld where
  contentType : List Char
  readability : Option ReadabilityResult
  docTitle : List Char
  bodyText : List Char
  deriving DecidableEq, Repr

/-- Embedding of `fetchXoEmbed` (generate-radio.js:176-198): on a
successful oEmbed response, collapse and trim the embed text, build the
title from its first 40 characters plus the author attribution; `none`
on any failure. -/
def fetchXoEmbed (w : Option XoWorld) : Option (List Char × List Char) :=
  match w with
  | none => none
  | some w =>
    if !w.ok then none
    else
      let clean := jsTrim (collapseWs w.domText)
      let author :=
        if w.authorName ≠ [] then
          ('（' :: 'b' :: 'y' :: ' ' :: w.authorName) ++ ['）']
        else []
      some (clean.take 40 ++ author, clean)

/-- Embedding of `fetchArticleContent` (generate-radio.js:414-458).
Priority: successful X-embed extraction (only attempted for X status
URLs); otherwise the page fetch — empty article when the fetch failed or
the content type is not HTML, Readability main content when it parsed,
raw body text as fallback; the latter two truncate to
`maxArticleChars`. -/
def fetchArticleContent (maxArticleChars : Nat) (url : List Char)
    (xo : Option XoWorld) (page : Option PageWorld) : Article :=
  match (if isXStatusUrl url then fetchXoEmbed xo else none) with
  | some (xoTitle, xoText) =>
    { url := url
      title := some (if xoTitle ≠ [] then xoTitle else ['X', 'の', '投', '稿'])
      text := if xoText ≠ [] then some xoText else none }
  | none =>
    match page with
    | none => { url := url, title := none, text := none }
    | some p =>
      if ¬ listContainsSub p.contentType ('t' :: 'e' :: 'x' :: 't' :: '/' :: 'h' :: 't' :: 'm' :: 'l' :: []) then
        { url := url, title := none, text := none }
      else
        match p.readability with
        | none =>
          { url := url
            title := if p.docTitle ≠ [] then some p.docTitle else none
            text :=
              if p.bodyText ≠ [] then some ((jsTrim p.bodyText).take maxArticleChars)
              else none }
        | some art =>
          let cleanText :=
            if art.textContent ≠ [] then jsTrim (collapseWs art.textContent) else []
          { url := url
            title :=
              if art.title ≠ [] then some art.title
              else if p.docTitle ≠ [] then some p.docTitle
              else none
            text :=
              if cleanText ≠ [] then some (cleanText.take maxArticleChars) else none }

/-! ## Dialogue script parsing -/

inductive Speaker where
  | A
  | B
  deriving DecidableEq, Repr

def flipSpeaker : Speaker → Speaker
  | .A => .B
  | .B => .A

/-- Split on `/\r?\n/`: newline separators, each consuming a preceding
carriage return. -/
def splitLinesAux : List Char → List Char → List (List Char)
  | [], cur => [cur.reverse]
  | '\n' :: rest, cur =>
    (match cur with
     | '\r' :: c => c.reverse
     | c => c.reverse) :: splitLinesAux rest []
  | c :: rest, cur => splitLinesAux rest (c :: cur)

def splitLines (s : List Char) : List (List Char) := splitLinesAux s []

def isColon (c : Char) : Bool := c = ':' ∨ c = '：'

/-- Match the `(?:司会)?A` alternative of the label regex (with `/i`). -/
def matchSpeakerA : List Char → Option (List Char)
  | '司' :: '会' :: c :: rest => if c = 'A' ∨ c = 'a' then some rest else none
  | c :: rest => if c = 'A' ∨ c = 'a' then some rest else none
  | [] => none

/-- Match the `(?:相棒)?B` alternative of the label regex (with `/i`). -/
def matchSpeakerB : List Char → Option (List Char)
  | '相' :: '棒' :: c :: rest => if c = 'B' ∨ c = 'b' then some rest else none
  | c :: rest => if c = 'B' ∨ c = 'b' then some rest else none
  | [] => none

/-- The first label regex `^((?:司会)?A|(?:相棒)?B)[:：]\s*(.*)$/i`,
returning the speaker and the trimmed captured text. -/
def matchLabelColon (l : List Char) : Option (Speaker × List Char) :=
  (match matchSpeakerA l with
   | some (c :: rest) =>
     if isColon c then some (Speaker.A, jsTrim (rest.dropWhile jsIsWs)) else none
   | _ => none) <|>
  (match matchSpeakerB l with
   | some (c :: rest) =>
     if isColon c then some (Speaker.B, jsTrim (rest.dropWhile jsIsWs)) else none
   | _ => none)

/-- The second label regex `^(A|B)\s+(.*)$` (case sensitive). -/
def matchLabelSpace (l : List Char) : Option (Speaker × List Char) :=
  match l with
  | 'A' :: c :: rest =>
    if jsIsWs c then some (Speaker.A, jsTrim ((c :: rest).dropWhile jsIsWs)) else none
  | 'B' :: c :: rest =>
    if jsIsWs c then some (Speaker.B, jsTrim ((c :: rest).dropWhile jsIsWs)) else none
  | _ => none

/-- One iteration of the `parseDialogueScript` loop: resolve the line's
speaker (label, or alternation from the last speaker), give back the new
`lastSpeaker` and the segment to push (if the text is nonempty). -/
def dialogueStep (lastSpeaker : Speaker) (raw : List Char) :
    Speaker × Option (Speaker × List Char) :=
  match matchLabelColon raw with
  | some (sp, text) => (sp, if text ≠ [] then some (sp, text) else none)
  | none =>
    match matchLabelSpace raw with
    | some (sp, text) => (sp, if text ≠ [] then some (sp, text) else none)
    | none =>
      let sp := flipSpeaker lastSpeaker
      (sp, if raw ≠ [] then some (sp, raw) else none)

def parseDialogueLoop : Speaker → List (List Char) → List (Speaker × List Char)
  | _, [] => []
  | last, raw :: rest =>
    match dialogueStep last raw with
    | (last2, some seg) => seg :: parseDialogueLoop last2 rest
    | (last2, none) => parseDialogueLoop last2 rest

/-- Embedding of `parseDialogueScript` (generate-radio.js:836-871,
identical in part_000:468-503): split into trimmed nonempty lines and run
the labelling loop with `lastSpeaker` starting at `A`. -/
def parseDialogueScript (script : List Char) : List (Speaker × List Char) :=
  parseDialogueLoop Speaker.A (((splitLines script).map jsTrim).filter (· ≠ []))

/-! ## JSON values, hex and base64 decoding -/

/-- JSON values, the shape of parsed provider response bodies. -/
inductive JVal where
  | null
  | bool (b : Bool)
  | num (n : Int)
  | str (s : List Char)
  | arr (elems : List JVal)
  | obj (fields : List (List Char × JVal))

/-- Property access `v[key]`; `none` models `undefined` (also on
non-objects, where JS property access yields `undefined`). -/
def getField : JVal → List Char → Option JVal
  | .obj fields, k => (fields.find? fun f => decide (f.1 = k)).map (·.2)
  | _, _ => none

/-- JS truthiness of a JSON value. -/
def jsTruthy : JVal → Bool
  | .null => false
  | .bool b => b
  | .num n => decide (n ≠ 0)
  | .str s => decide (s ≠ [])
  | .arr _ => true
  | .obj _ => true

def hexDigitVal (c : Char) : Option Nat :=
  if '0' ≤ c ∧ c ≤ '9' then some (c.toNat - 48)
  else if 'a' ≤ c ∧ c ≤ 'f' then some (c.toNat - 87)
  else if 'A' ≤ c ∧ c ≤ 'F' then some (c.toNat - 55)
  else none

/-- Model of `Buffer.from(s, 'hex')`: decode pairs of hex digits, stopping
at the first invalid pair or odd leftover. -/
def jsHexDecode : List Char → List Nat
  | c1 :: c2 :: rest =>
    match hexDigitVal c1, hexDigitVal c2 with
    | some hi, some lo => (16 * hi + lo) :: jsHexDecode rest
    | _, _ => []
  | _ => []

def b64DigitVal (c : Char) : Option Nat :=
  if 'A' ≤ c ∧ c ≤ 'Z' then some (c.toNat - 65)
  else if 'a' ≤ c ∧ c ≤ 'z' then some (c.toNat - 71)
  else if '0' ≤ c ∧ c ≤ '9' then some (c.toNat + 4)
  else if c = '+' then some 62
  else if c = '/' then some 63
  else none

def b64Groups : List Nat → List Nat
  | a :: b :: c :: d :: rest =>
    (a * 4 + b / 16) :: ((b % 16) * 16 + c / 4) :: ((c % 4) * 64 + d) :: b64Groups rest
  | [a, b] => [a * 4 + b / 16]
  | [a, b, c] => [a * 4 + b / 16, (b % 16) * 16 + c / 4]
  | _ => []

/-- Model of `Buffer.from(s, 'base64')` (Node's forgiving decoder: ignore
padding and foreign characters, decode 6-bit groups). -/
def jsB64Decode (s : List Char) : List Nat :=
  b64Groups (s.filterMap b64DigitVal)

/-- Model of JS `Number(s)` restricted to plain decimal-digit strings (the
shapes a `retry-after` header takes); `none` models `NaN`, and
`Number('') = 0`. -/
def jsNumber (s : List Char) : Option Nat :=
  if s = [] then some 0
  else if s.all (fun c => '0' ≤ c ∧ c ≤ '9') then
    some (s.foldl (fun acc c => 10 * acc + (c.toNat - 48)) 0)
  else none

/-! ## MiniMax text-to-speech request -/

/-- The observable part of one MiniMax HTTP response.  `bodyJson = none`
models a body that fails to parse as JSON (`res.json().catch(() => null)`),
`contentType` is the `content-type` header (empty when absent),
`bodyBytes` the raw body bytes. -/
structure MMResponse where
  status : Nat
  retryAfterHeader : Option (List Char)
  contentType : List Char
  bodyBytes : List Nat
  bodyJson : Option JVal

/-- Which throw site of `minimaxT2ARequest` fired. -/
inductive MMError where
  | apiError (status : Nat)
  | baseRespError (code : Option Int)
  | audioUrlFetchFailed
  | unexpectedFormat
  | bufferTypeError
  deriving DecidableEq, Repr

/-- Result of one round of `minimaxT2ARequest`: a 429 leads to a sleep of
the given seconds and an identical retry (`none` seconds models a `NaN`
header), otherwise the call returns a byte buffer or throws. -/
inductive MMResult where
  | rateLimited (retryAfterSeconds : Option Nat)
  | ok (audio : List Nat)
  | err (e : MMError)

/-- Retry-after computation `Number(res.headers.get('retry-after') || '1')`
shared by both minimax variants: a missing or empty header falls back to
the string `'1'` before conversion (so a literal `'0'` stays 0). -/
def minimaxRetryAfter (h : Option (List Char)) : Option Nat :=
  jsNumber (match h with
            | none => ['1']
            | some s => if s = [] then ['1'] else s)

def statusOk (status : Nat) : Prop := 200 ≤ status ∧ status < 300

instance (s : Nat) : Decidable (statusOk s) := by unfold statusOk; infer_instance

/-- The `data && data.base_resp && data.base_resp.status_code !== 0` guard
(note `undefined !== 0` and non-number codes are `true`, hence errors). -/
def mmBaseRespBad (data : JVal) : Bool :=
  jsTruthy data &&
  (match getField data ('b' :: 'a' :: 's' :: 'e' :: '_' :: 'r' :: 'e' :: 's' :: 'p' :: []) with
   | some br =>
     jsTruthy br &&
     (match getField br ('s' :: 't' :: 'a' :: 't' :: 'u' :: 's' :: '_' :: 'c' :: 'o' :: 'd' :: 'e' :: []) with
      | some (JVal.num c) => decide (c ≠ 0)
      | _ => true)
   | none => false)

def mmBaseRespCode (data : JVal) : Option Int :=
  match getField data ('b' :: 'a' :: 's' :: 'e' :: '_' :: 'r' :: 'e' :: 's' :: 'p' :: []) with
  | some br =>
    match getField br ('s' :: 't' :: 'a' :: 't' :: 'u' :: 's' :: '_' :: 'c' :: 'o' :: 'd' :: 'e' :: []) with
    | some (JVal.num c) => some c
    | _ => none
  | none => none

/-- `data && data.data && typeof data.data.audio === 'string'`, with the
subsequent `if (hexAudio)` empty-string falsiness folded in. -/
def mmHexAudio (data : JVal) : Option (List Char) :=
  match getField data ('d' :: 'a' :: 't' :: 'a' :: []) with
  | some dd =>
    match getField dd ('a' :: 'u' :: 'd' :: 'i' :: 'o' :: []) with
    | some (JVal.str s) => if s ≠ [] then some s else none
    | _ => none
  | none => none

/-- The base64 candidate list of generate-radio.js:943-948: `audio_base64`
at the top level, under `data`, or on the first element of a `data`
array. -/
def mmB64Candidates (data : JVal) : List (List Char) :=
  (match getField data ('a' :: 'u' :: 'd' :: 'i' :: 'o' :: '_' :: 'b' :: 'a' :: 's' :: 'e' :: '6' :: '4' :: []) with
   | some (JVal.str s) => [s]
   | _ => []) ++
  (match getField data ('d' :: 'a' :: 't' :: 'a' :: []) with
   | some dd =>
     match getField dd ('a' :: 'u' :: 'd' :: 'i' :: 'o' :: '_' :: 'b' :: 'a' :: 's' :: 'e' :: '6' :: '4' :: []) with
     | some (JVal.str s) => [s]
     | _ => []
   | none => []) ++
  (match getField data ('d' :: 'a' :: 't' :: 'a' :: []) with
   | some (JVal.arr (e :: _)) =>
     if jsTruthy e then
       match getField e ('a' :: 'u' :: 'd' :: 'i' :: 'o' :: '_' :: 'b' :: 'a' :: 's' :: 'e' :: '6' :: '4' :: []) with
       | some (JVal.str s) => [s]
       | _ => []
     else []
   | _ => [])

/-- The `audio_url` fallback of generate-radio.js:937-942, then the base64
candidates, then the final throw. -/
def mmAfterHex (fetchAudioUrl : List Char → Option (Nat × List Nat))
    (data : JVal) : MMResult :=
  match getField data ('a' :: 'u' :: 'd' :: 'i' :: 'o' :: '_' :: 'u' :: 'r' :: 'l' :: []) with
  | some (JVal.str u) =>
    if u ≠ [] then
      match fetchAudioUrl u with
      | some (st, bytes) =>
        if statusOk st then MMResult.ok bytes
        else MMResult.err MMError.audioUrlFetchFailed
      | none => MMResult.err MMError.audioUrlFetchFailed
    else
      match mmB64Candidates data with
      | s :: _ => MMResult.ok (jsB64Decode s)
      | [] => MMResult.err MMError.unexpectedFormat
  | _ =>
    match mmB64Candidates data with
    | s :: _ => MMResult.ok (jsB64Decode s)
    | [] => MMResult.err MMError.unexpectedFormat

/-- Embedding of `minimaxT2ARequest` (generate-radio.js:873-954), one
round: 429 handling, error statuses, then the response-shape normalizer —
binary body on an audio content type, `base_resp` error check, hex audio
at `data.audio`, `audio_url` pointer fetch, base64 fallbacks, and the
final unexpected-format throw.  `fetchAudioUrl` is the follow-up fetch
used by the pointer shape. -/
def minimaxT2ARequest (fetchAudioUrl : List Char → Option (Nat × List Nat))
    (res : MMResponse) : MMResult :=
  if res.status = 429 then
    MMResult.rateLimited (minimaxRetryAfter res.retryAfterHeader)
  else if ¬ statusOk res.status then
    MMResult.err (MMError.apiError res.status)
  else if listContainsSub res.contentType ('a' :: 'u' :: 'd' :: 'i' :: 'o' :: []) then
    MMResult.ok res.bodyBytes
  else
    match res.bodyJson with
    | none => MMResult.err MMError.unexpectedFormat
    | some data =>
      if mmBaseRespBad data then
        MMResult.err (MMError.baseRespError (mmBaseRespCode data))
      else
        match mmHexAudio data with
        | some s => MMResult.ok (jsHexDecode s)
        | none => mmAfterHex fetchAudioUrl data

namespace Legacy

/-- Index access `data.data[0]` (on an array: first element; on an object:
the property named "0"). -/
def dataZero (data : JVal) : Option JVal :=
  match getField data ('d' :: 'a' :: 't' :: 'a' :: []) with
  | some (JVal.arr (e :: _)) => some e
  | some (JVal.obj fs) => getField (JVal.obj fs) ['0']
  | _ => none

/-- Embedding of the part_000 variant of `minimaxT2ARequest`
(part_000:505-554): 429 handling, error statuses, binary body on audio
content type, then base64 at `data.audio`, base64 at
`data.data[0].audio_base64`, and the final throw.  A truthy non-string
`audio` value reaches `Buffer.from` with a non-string argument and is
modelled as the distinguished `bufferTypeError`. -/
def minimaxT2ARequest (res : MMResponse) : MMResult :=
  if res.status = 429 then
    MMResult.rateLimited (minimaxRetryAfter res.retryAfterHeader)
  else if ¬ statusOk res.status then
    MMResult.err (MMError.apiError res.status)
  else if listContainsSub res.contentType ('a' :: 'u' :: 'd' :: 'i' :: 'o' :: []) then
    MMResult.ok res.bodyBytes
  else
    match res.bodyJson with
    | none => MMResult.err MMError.unexpectedFormat
    | some data =>
      match getField data ('a' :: 'u' :: 'd' :: 'i' :: 'o' :: []) with
      | some (JVal.str s) =>
        if s ≠ [] then MMResult.ok (jsB64Decode s)
        else legacyTail data
      | some v => if jsTruthy v then MMResult.err MMError.bufferTypeError else legacyTail data
      | none => legacyTail data
where
  legacyTail (data : JVal) : MMResult :=
    match dataZero data with
    | some e =>
      if jsTruthy e then
        match getField e ('a' :: 'u' :: 'd' :: 'i' :: 'o' :: '_' :: 'b' :: 'a' :: 's' :: 'e' :: '6' :: '4' :: []) with
        | some (JVal.str s) =>
          if s ≠ [] then MMResult.ok (jsB64Decode s)
          else MMResult.err MMError.unexpectedFormat
        | some v =>
          if jsTruthy v then MMResult.err MMError.bufferTypeError
          else MMResult.err MMError.unexpectedFormat
        | none => MMResult.err MMError.unexpectedFormat
      else MMResult.err MMError.unexpectedFormat
    | none => MMResult.err MMError.unexpectedFormat

end Legacy

/-! ## Discord API request with rate-limit retry -/

/-- A URL as built by `discordApiRequest`: base plus ordered query
parameters. -/
structure DUrl where
  base : List Char
  query : List (List Char × List Char)
  deriving DecidableEq, Repr

/-- Model of `url.searchParams.set`: replace an existing key or append. -/
def setQueryParam (q : List (List Char × List Char)) (k v : List Char) :
    List (List Char × List Char) :=
  if q.any (fun p => decide (p.1 = k)) then
    q.map (fun p => if p.1 = k then (k, v) else p)
  else q ++ [(k, v)]

/-- URL construction of discordApiRequest (generate-radio.js:201-207):
base url plus pathname, then `set` for every non-null query parameter. -/
def buildDiscordUrl (pathname : List Char)
    (queryParams : List (List Char × Option (List Char))) : DUrl :=
  { base := ('h' :: 't' :: 't' :: 'p' :: 's' :: ':' :: '/' :: '/' :: 'd' :: 'i' :: 's' :: 'c' :: 'o' :: 'r' :: 'd' :: '.' :: 'c' :: 'o' :: 'm' :: '/' :: 'a' :: 'p' :: 'i' :: '/' :: 'v' :: '1' :: '0' :: []) ++ pathname
    query := queryParams.foldl
      (fun q kv =>
        match kv.2 with
        | some v => setQueryParam q kv.1 v
        | none => q) [] }

/-- One observable Discord HTTP response. -/
structure DResponse where
  status : Nat
  retryAfterHeader : Option (List Char)
  body : JVal

inductive DReqResult where
  | ok (body : JVal)
  | apiError (status : Nat)
  | noResponse

/-- What a run of the `while (true)` fetch loop did: its outcome, the
sleep durations performed (seconds, in order), and the URL of every fetch
it issued. -/
structure DOutcome where
  result : DReqResult
  sleeps : List Nat
  requests : List DUrl

/-- `Number(res.headers.get('retry-after'))` — `Number(null)` is 0. -/
def numberOfHeader (h : Option (List Char)) : Option Nat :=
  match h with
  | none => some 0
  | some s => jsNumber s

/-- JS `x || 1` on a number (`none` = NaN): 0 and NaN are falsy. -/
def jsOrOne (v : Option Nat) : Nat :=
  match v with
  | some n => if n ≠ 0 then n else 1
  | none => 1

/-- Loop body of `discordApiRequest` (generate-radio.js:200-227) over the
successive responses the network returns for the (fixed) URL: on a 429,
sleep `Number(retry-after) || 1` seconds and re-issue the identical
request; otherwise return the parsed body or throw on a non-ok status.
An exhausted response list means the loop is still waiting. -/
def discordApiRequestGo (url : DUrl) : List DResponse → DOutcome
  | [] => ⟨DReqResult.noResponse, [], []⟩
  | r :: rest =>
    if r.status = 429 then
      let o := discordApiRequestGo url rest
      ⟨o.result, jsOrOne (numberOfHeader r.retryAfterHeader) :: o.sleeps,
        url :: o.requests⟩
    else if statusOk r.status then ⟨DReqResult.ok r.body, [], [url]⟩
    else ⟨DReqResult.apiError r.status, [], [url]⟩

/-- Embedding of `discordApiRequest`: the URL is computed once, before the
loop, so every attempt uses the same URL and query parameters. -/
def discordApiRequest (pathname : List Char)
    (queryParams : List (List Char × Option (List Char)))
    (responses : List DResponse) : DOutcome :=
  discordApiRequestGo (buildDiscordUrl pathname queryParams) responses

/-! ## Auxiliary lemmas for the claims -/

theorem collapseWsAux_of_nonws (b : Bool) (l : List Char)
    (h : ∀ c ∈ l, jsIsWs c = false) : collapseWsAux b l = l := by
  induction l generalizing b with
  | nil => rfl
  | cons c rest ih =>
    have hc := h c (List.mem_cons_self c rest)
    unfold collapseWsAux
    rw [hc]
    simp only [Bool.false_eq_true, if_false]
    rw [ih false fun x hx => h x (List.mem_cons_of_mem c hx)]

theorem dropWhile_of_nonws (l : List Char)
    (h : ∀ c ∈ l, jsIsWs c = false) : l.dropWhile jsIsWs = l := by
  cases l with
  | nil => rfl
  | cons c rest =>
    have hc := h c (List.mem_cons_self c rest)
    simp [List.dropWhile, hc]

theorem jsTrim_of_nonws (l : List Char)
    (h : ∀ c ∈ l, jsIsWs c = false) : jsTrim l = l := by
  unfold jsTrim
  rw [dropWhile_of_nonws l h, dropWhile_of_nonws l.reverse
    (fun c hc => h c (List.mem_reverse.mp hc)), List.reverse_reverse]

theorem insertAscTsE_of_le (m : ExtractedMsg) (l : List ExtractedMsg)
    (h : ∀ y ∈ l, m.timestamp ≤ y.timestamp) : insertAscTsE m l = m :: l := by
  cases l with
  | nil => rfl
  | cons y ys =>
    unfold insertAscTsE
    rw [if_pos (h y (List.mem_cons_self y ys))]

theorem sortAscTsE_of_sorted (l : List ExtractedMsg)
    (h : l.Pairwise (fun a b => a.timestamp ≤ b.timestamp)) : sortAscTsE l = l := by
  induction l with
  | nil => rfl
  | cons x xs ih =>
    rw [List.pairwise_cons] at h
    unfold sortAscTsE
    rw [ih h.2, insertAscTsE_of_le x xs h.1]

/-! ## Concrete inputs used by counterexamples and witnesses -/

/-- A 101-message history: ids 1..101, timestamp equal to the id, only the
two oldest messages carry a URL. -/
def histMsg (i : Nat) : RawMsg :=
  { id := i
    timestamp := (i : Int)
    msgType := 0
    author := some { id := ['u'], username := ['u'], bot := false }
    content :=
      if i = 1 then "https://e.com/1".toList
      else if i = 2 then "https://e.com/2".toList
      else []
    attachments := []
    embeds := [] }

def hist101 : List RawMsg := (List.range 101).map fun i => histMsg (i + 1)

def mmAppJson : List Char := "application/json".toList

/-- A 200 JSON response carrying the given envelope. -/
def mmRespWith (j : JVal) : MMResponse :=
  { status := 200, retryAfterHeader := none, contentType := mmAppJson
    bodyBytes := [], bodyJson := some j }

/-- The spec's base64 envelope shape: `{audio: "aGVsbG8="}`. -/
def mmEnvTopB64 : JVal :=
  JVal.obj [("audio".toList, JVal.str "aGVsbG8=".toList)]

/-- The spec's hex envelope shape: `{data: {audio: "68656c6c6f"}}`. -/
def mmEnvHex : JVal :=
  JVal.obj [("data".toList, JVal.obj [("audio".toList, JVal.str "68656c6c6f".toList)])]

/-- The pointer envelope shape: `{audio_url: "http://a/b"}`. -/
def mmEnvUrl : JVal :=
  JVal.obj [("audio_url".toList, JVal.str "http://a/b".toList)]

/-- A base64 envelope at the `audio_base64` field. -/
def mmEnvB64Field : JVal :=
  JVal.obj [("audio_base64".toList, JVal.str "aGVsbG8=".toList)]

/-- A base64 envelope at `data[0].audio_base64`. -/
def mmEnvArrB64 : JVal :=
  JVal.obj [("data".toList,
    JVal.arr [JVal.obj [("audio_base64".toList, JVal.str "aGVsbG8=".toList)]])]

def helloBytes : List Nat := [104, 101, 108, 108, 111]

def mmNoFetch : List Char → Option (Nat × List Nat) := fun _ => none

def discordMsgsPath : List Char := "/channels/1/messages".toList

def discordLimitParams : List (List Char × Option (List Char)) :=
  [("limit".toList, some "100".toList)]

def d429 (h : Option (List Char)) : DResponse :=
  { status := 429, retryAfterHeader := h, body := JVal.null }

def dOk : DResponse := { status := 200, retryAfterHeader := none, body := JVal.arr [] }

/-- An X status URL and an oEmbed world whose rendered text is 2001
non-whitespace characters. -/
def xStatusUrlEx : List Char := "https://x.com/u/status/1".toList

def xoLongWorld : XoWorld :=
  { ok := true, domText := List.replicate 2001 'a', authorName := [] }

/-! ## C1 — TTS response-shape normalization -/

/-- C1 counterexample: of the spec's envelope shapes, the generate-radio.js
`minimaxT2ARequest` raises on the base64 envelope `{audio: "aGVsbG8="}`,
and the part_000 variant raises on the hex envelope
`{data: {audio: "68656c6c6f"}}` — so neither function returns the decoded
bytes for all four shapes. -/
theorem minimax_spec_shapes_rejected :
    minimaxT2ARequest mmNoFetch (mmRespWith mmEnvTopB64)
      = MMResult.err MMError.unexpectedFormat ∧
    Legacy.minimaxT2ARequest (mmRespWith mmEnvHex)
      = MMResult.err MMError.unexpectedFormat :=
  ⟨rfl, rfl⟩

/-- C1 (amended): each variant decodes the shapes it actually handles —
both return the raw body bytes for an audio content type; generate-radio.js
decodes the hex envelope (to the "hello" bytes), follows the `audio_url`
pointer, and decodes the `audio_base64` field; part_000 decodes the
base64 `{audio: ...}` envelope and the `data[0].audio_base64` shape. -/
theorem minimaxT2ARequest_handled_shapes :
    (∀ (fetch : List Char → Option (Nat × List Nat)) (res : MMResponse),
      statusOk res.status →
      listContainsSub res.contentType ('a' :: 'u' :: 'd' :: 'i' :: 'o' :: []) = true →
      minimaxT2ARequest fetch res = MMResult.ok res.bodyBytes ∧
      Legacy.minimaxT2ARequest res = MMResult.ok res.bodyBytes) ∧
    minimaxT2ARequest mmNoFetch (mmRespWith mmEnvHex) = MMResult.ok helloBytes ∧
    (∀ bytes : List Nat,
      minimaxT2ARequest (fun _ => some (200, bytes)) (mmRespWith mmEnvUrl)
        = MMResult.ok bytes) ∧
    minimaxT2ARequest mmNoFetch (mmRespWith mmEnvB64Field) = MMResult.ok helloBytes ∧
    Legacy.minimaxT2ARequest (mmRespWith mmEnvTopB64) = MMResult.ok helloBytes ∧
    Legacy.minimaxT2ARequest (mmRespWith mmEnvArrB64) = MMResult.ok helloBytes := by
  refine ⟨?_, rfl, fun bytes => rfl, rfl, rfl, rfl⟩
  intro fetch res hok hct
  have h429 : ¬ res.status = 429 := by
    unfold statusOk at hok
    omega
  constructor
  · unfold minimaxT2ARequest
    rw [if_neg h429, if_neg (not_not_intro hok), if_pos hct]
  · unfold Legacy.minimaxT2ARequest
    rw [if_neg h429, if_neg (not_not_intro hok), if_pos hct]

/-! ## C2 — article text length cap -/

/-- C2 counterexample: on the social-post embed-extraction path the
returned text is the full embed text — 2001 characters here — exceeding
the 2000-character `maxArticleChars` cap that the other paths apply. -/
theorem fetchArticleContent_embed_text_uncapped :
    (fetchArticleContent 2000 xStatusUrlEx (some xoLongWorld) none).text
      = some (List.replicate 2001 'a') ∧
    (List.replicate 2001 'a' : List Char).length = 2001 ∧ ¬ (2001 ≤ 2000) := by
  have hnonws : ∀ c ∈ (List.replicate 2001 'a' : List Char), jsIsWs c = false := by
    intro c hc
    rw [List.eq_of_mem_replicate hc]
    decide
  have hclean : jsTrim (collapseWs (List.replicate 2001 'a')) = List.replicate 2001 'a' := by
    unfold collapseWs
    rw [collapseWsAux_of_nonws false _ hnonws, jsTrim_of_nonws _ hnonws]
  have hne : (List.replicate 2001 'a' : List Char) ≠ [] := by
    intro hcontra
    have h2 := congrArg List.length hcontra
    rw [List.length_replicate] at h2
    simp at h2
  have hx : isXStatusUrl xStatusUrlEx = true := by decide
  have hxo : fetchXoEmbed (some xoLongWorld)
      = some ((List.replicate 2001 'a').take 40, List.replicate 2001 'a') := by
    unfold fetchXoEmbed xoLongWorld
    dsimp only
    rw [hclean]
    rfl
  refine ⟨?_, List.length_replicate 2001 'a', by omega⟩
  unfold fetchArticleContent
  rw [hx]
  simp only [if_true]
  rw [hxo]
  simp only []
  rw [if_pos hne]

/-- C2 (amended): on every path other than a successful embed extraction —
that is, whenever the URL is not an X status URL or the embed call fails —
a present `text` is at most `maxArticleChars` characters long.  (The
main-content and raw-body paths truncate; the embed path returns the
embed text unchanged.) -/
theorem fetchArticleContent_text_capped (maxArticleChars : Nat) (url : List Char)
    (xo : Option XoWorld) (page : Option PageWorld)
    (hx : isXStatusUrl url = false ∨ fetchXoEmbed xo = none) :
    ∀ t, (fetchArticleContent maxArticleChars url xo page).text = some t →
      t.length ≤ maxArticleChars := by
  have hnone : (if isXStatusUrl url then fetchXoEmbed xo else none) = none := by
    rcases hx with h | h
    · rw [h]
      rfl
    · by_cases hb : isXStatusUrl url
      · rw [if_pos hb, h]
      · rw [if_neg hb]
  intro t ht
  unfold fetchArticleContent at ht
  rw [hnone] at ht
  cases page with
  | none => exact absurd ht (by simp)
  | some p =>
    dsimp only at ht
    split at ht
    · exact absurd ht (by simp)
    · split at ht
      · dsimp only at ht
        split at ht
        · injection ht with ht
          rw [← ht]
          exact List.length_take_le _ _
        · exact absurd ht (by simp)
      · dsimp only at ht
        split at ht
        · split at ht
          · injection ht with ht
            rw [← ht]
            exact List.length_take_le _ _
          · exact absurd ht (by simp)
        · split at ht
          · injection ht with ht
            rw [← ht]
            exact List.length_take_le _ _
          · exact absurd ht (by simp)

/-- Witness for the cap theorem: a concrete non-X URL whose page text is
truncated to 5 characters. -/
theorem fetchArticleContent_text_capped_witness :
    (isXStatusUrl "https://e.com/x".toList = false ∨
      fetchXoEmbed (none : Option XoWorld) = none) ∧
    (∀ t, (fetchArticleContent 5 "https://e.com/x".toList none
        (some { contentType := "text/html".toList
                readability := some { title := ['T'], textContent := "abcdefgh".toList }
                docTitle := []
                bodyText := [] })).text = some t → t.length ≤ 5) :=
  ⟨Or.inl (by decide),
   fetchArticleContent_text_capped 5 _ none _ (Or.inl (by decide))⟩

/-! ## C3 — pagination window and termination -/

/-- C3: for every finite history and window, the pagination loop finishes
within `hist.length + 1` pages (the fuel is not exhausted) and every
returned message's timestamp lies in `[startUtc, endUtc)`. -/
theorem fetchChannelMessagesInRange_spec (hist : List RawMsg) (startUtc endUtc : Int) :
    ∃ res, fetchChannelMessagesInRange hist startUtc endUtc = some res ∧
      ∀ m ∈ res, startUtc ≤ m.timestamp ∧ m.timestamp < endUtc := by
  obtain ⟨res, hres, hmem⟩ := fetchGo_spec hist startUtc endUtc (hist.length + 1) none []
    (by
      unfold candCount
      have := List.length_filter_le (matchesBefore none) hist
      omega)
  refine ⟨res, hres, fun m hm => ?_⟩
  rcases hmem m hm with h | h
  · simp at h
  · exact h

/-! ## C4 — rate-limit retry of the message pager -/

/-- C4 counterexample: a 429 whose `retry-after` header is `0` causes a
sleep of 1 second, not the header's 0 — `Number(h) || 1` treats a zero
duration as absent. -/
theorem discordApiRequest_retry_after_zero :
    (discordApiRequest discordMsgsPath discordLimitParams
      [d429 (some ['0']), dOk]).sleeps = [1] ∧
    [(1 : Nat)] ≠ [0] :=
  ⟨rfl, by decide⟩

/-- C4 (amended): a 429 makes the pager sleep `Number(retry-after) || 1`
seconds — the header's value when it is a nonzero number, 1 second when it
is absent, non-numeric or zero — and re-issue the identical request (same
URL and query parameters), with the eventual outcome exactly that of the
remaining attempts; the simulated 429 with `retry-after: 2` gives exactly
one retry, a single 2-second sleep, two identical requests, and the
success body. -/
theorem discordApiRequest_rate_limit_retry :
    (∀ (pathname : List Char) (params : List (List Char × Option (List Char)))
       (h : Option (List Char)) (rest : List DResponse),
      (discordApiRequest pathname params (d429 h :: rest)).result
        = (discordApiRequest pathname params rest).result ∧
      (discordApiRequest pathname params (d429 h :: rest)).sleeps
        = jsOrOne (numberOfHeader h) :: (discordApiRequest pathname params rest).sleeps ∧
      (discordApiRequest pathname params (d429 h :: rest)).requests
        = buildDiscordUrl pathname params
            :: (discordApiRequest pathname params rest).requests) ∧
    jsOrOne (numberOfHeader none) = 1 ∧
    (∀ (s : List Char) (n : Nat), jsNumber s = some n → n ≠ 0 →
      jsOrOne (numberOfHeader (some s)) = n) ∧
    (discordApiRequest discordMsgsPath discordLimitParams
      [d429 (some ['2']), dOk]).sleeps = [2] ∧
    (discordApiRequest discordMsgsPath discordLimitParams
      [d429 (some ['2']), dOk]).requests
      = [buildDiscordUrl discordMsgsPath discordLimitParams,
         buildDiscordUrl discordMsgsPath discordLimitParams] ∧
    (discordApiRequest discordMsgsPath discordLimitParams
      [d429 (some ['2']), dOk]).result = DReqResult.ok (JVal.arr []) := by
  refine ⟨fun pathname params h rest => ⟨rfl, rfl, rfl⟩, rfl, ?_, rfl, rfl, rfl⟩
  intro s n h1 h2
  simp only [numberOfHeader, jsOrOne, h1]
  simp [h2]

/-! ## C5 — the JST window boundary -/

/-- An instant whose JST civil time is exactly 04:00:00.000. -/
def isJstBoundary (b : Int) : Prop :=
  (b + 9 * 3600000) % 86400000 = 4 * 3600000

instance (b : Int) : Decidable (isJstBoundary b) := by
  unfold isJstBoundary
  infer_instance

/-- C5: the window start is `end - 24h`; the computed end is a 04:00-JST
boundary, lies at or before "now", within 24h of it, and is the largest
such boundary; and any two instants in one boundary-to-boundary interval
compute the same end. -/
theorem getDefaultJstEndUtcNow_spec (t t1 t2 b : Int)
    (hb : isJstBoundary b)
    (h1 : b ≤ t1 ∧ t1 < b + 86400000)
    (h2 : b ≤ t2 ∧ t2 < b + 86400000) :
    jstWindow t = (getDefaultJstEndUtcNow t - 24 * 60 * 60 * 1000,
      getDefaultJstEndUtcNow t) ∧
    isJstBoundary (getDefaultJstEndUtcNow t) ∧
    getDefaultJstEndUtcNow t ≤ t ∧
    t - getDefaultJstEndUtcNow t < 86400000 ∧
    (∀ c, isJstBoundary c → c ≤ t → c ≤ getDefaultJstEndUtcNow t) ∧
    getDefaultJstEndUtcNow t1 = getDefaultJstEndUtcNow t2 := by
  have hc := getDefaultJstEndUtcNow_closed t
  have hc1 := getDefaultJstEndUtcNow_closed t1
  have hc2 := getDefaultJstEndUtcNow_closed t2
  unfold isJstBoundary at hb ⊢
  refine ⟨rfl, by omega, by omega, by omega, ?_, by omega⟩
  intro c hcb hct
  omega

/-- Witness: the epoch-adjacent boundary `-18000000` (1970-01-01 04:00
JST), with both instants inside its day. -/
theorem getDefaultJstEndUtcNow_spec_witness :
    isJstBoundary (-18000000) ∧
    ((-18000000 : Int) ≤ 0 ∧ (0 : Int) < -18000000 + 86400000) ∧
    ((-18000000 : Int) ≤ 3600000 ∧ (3600000 : Int) < -18000000 + 86400000) ∧
    (jstWindow 0 = (getDefaultJstEndUtcNow 0 - 24 * 60 * 60 * 1000,
        getDefaultJstEndUtcNow 0) ∧
      isJstBoundary (getDefaultJstEndUtcNow 0) ∧
      getDefaultJstEndUtcNow 0 ≤ 0 ∧
      (0 : Int) - getDefaultJstEndUtcNow 0 < 86400000 ∧
      (∀ c, isJstBoundary c → c ≤ 0 → c ≤ getDefaultJstEndUtcNow 0) ∧
      getDefaultJstEndUtcNow 0 = getDefaultJstEndUtcNow 3600000) :=
  ⟨by decide, by decide, by decide,
   getDefaultJstEndUtcNow_spec 0 0 3600000 (-18000000) (by decide) (by decide) (by decide)⟩

/-! ## C6 — URL normalization never throws -/

/-- C6: `normalizeUrl` is a total function of its input (the embedding
returns a string for every input, modelling the catch-all), and on parse
failure it returns the input unchanged. -/
theorem normalizeUrl_id_on_parse_failure (s : List Char)
    (h : parseUrl s = none) : normalizeUrl s = s := by
  unfold normalizeUrl
  rw [h]

theorem normalizeUrl_id_on_parse_failure_witness :
    parseUrl "not a url".toList = none ∧
    normalizeUrl "not a url".toList = "not a url".toList :=
  ⟨by decide, normalizeUrl_id_on_parse_failure _ (by decide)⟩

/-! ## C8 — dialogue script parsing -/

/-- C8: the example script parses to `[(A,hello),(B,world),(B,done)]`;
in general an unlabeled nonempty line is attributed to the flip of the
last speaker (and the loop starts from the fixed default `A`). -/
theorem parseDialogueScript_spec :
    parseDialogueScript "A: hello\nworld\nB: done".toList
      = [(Speaker.A, "hello".toList), (Speaker.B, "world".toList),
         (Speaker.B, "done".toList)] ∧
    (∀ (last : Speaker) (raw : List Char),
      matchLabelColon raw = none → matchLabelSpace raw = none →
      dialogueStep last raw
        = (flipSpeaker last,
           if raw ≠ [] then some (flipSpeaker last, raw) else none)) ∧
    (∀ script, parseDialogueScript script
      = parseDialogueLoop Speaker.A
          (((splitLines script).map jsTrim).filter (· ≠ []))) := by
  refine ⟨by decide, ?_, fun _ => rfl⟩
  intro last raw h1 h2
  unfold dialogueStep
  rw [h1, h2]

/-! ## C9 — per-channel URL truncation -/

/-- C9 counterexample: on the 101-message history the pager returns the
newest page first, so the deduplicated URL list (and hence its truncated
prefix) is not in oldest-first order — the oldest message's URL comes
last, not first. -/
theorem channelArticleUrls_not_oldest_first :
    (fetchChannelMessagesInRange hist101 0 1000).map
      (fun msgs => channelArticleUrls 20 (filterAndExtractFromMessages msgs))
      ≠
    (fetchChannelMessagesInRange hist101 0 1000).map
      (fun msgs => specOldestFirstUrls 20 (filterAndExtractFromMessages msgs)) := by
  decide

/-- C9 (amended): the URL list handed to fetching is the first
`maxArticleCount` URLs of the first-appearance de-duplication of the
extracted messages' normalized URLs, taken in collected order and
truncated before any fetching; its length never exceeds the cap, and
whenever the collected messages are in ascending timestamp order (as in
any single-page window) it coincides with the oldest-first prefix. -/
theorem channelArticleUrls_spec (maxArticleCount : Nat)
    (extracted : List ExtractedMsg)
    (hsorted : extracted.Pairwise (fun a b => a.timestamp ≤ b.timestamp)) :
    channelArticleUrls maxArticleCount extracted
      = specOldestFirstUrls maxArticleCount extracted ∧
    (channelArticleUrls maxArticleCount extracted).length ≤ maxArticleCount := by
  constructor
  · unfold channelArticleUrls specOldestFirstUrls
    rw [sortAscTsE_of_sorted extracted hsorted]
  · unfold channelArticleUrls
    have := List.length_take_le maxArticleCount
      (dedupFirst (extracted.map (·.urls)).flatten)
    omega

theorem channelArticleUrls_spec_witness :
    ([{ id := 1, author := none, timestamp := 5, content := [],
        urls := ["https://a/1".toList] },
      { id := 2, author := none, timestamp := 7, content := [],
        urls := ["https://a/2".toList] }] : List ExtractedMsg).Pairwise
        (fun a b => a.timestamp ≤ b.timestamp) ∧
    (channelArticleUrls 1
        [{ id := 1, author := none, timestamp := 5, content := [],
           urls := ["https://a/1".toList] },
         { id := 2, author := none, timestamp := 7, content := [],
           urls := ["https://a/2".toList] }]
      = specOldestFirstUrls 1
        [{ id := 1, author := none, timestamp := 5, content := [],
           urls := ["https://a/1".toList] },
         { id := 2, author := none, timestamp := 7, content := [],
           urls := ["https://a/2".toList] }] ∧
     (channelArticleUrls 1
        [{ id := 1, author := none, timestamp := 5, content := [],
           urls := ["https://a/1".toList] },
         { id := 2, author := none, timestamp := 7, content := [],
           urls := ["https://a/2".toList] }]).length ≤ 1) :=
  ⟨by decide, channelArticleUrls_spec 1 _ (by decide)⟩


/-! ## URL normalization: record view and idempotence machinery -/

/-- The record a successful `normalizeUrl` run serializes. -/
def normalizedRec (r : UrlRec) : UrlRec where
  scheme := r.scheme
  host := lowerStr r.host
  path :=
    if listEndsWith r.path ['/'] ∧ r.path.length > 1 then r.path.dropLast else r.path
  query := paramsToRemove.foldl deleteParam r.query
  frag := none

theorem normalizeUrl_of_parse_some (u : List Char) (r : UrlRec)
    (h : parseUrl u = some r) : normalizeUrl u = serializeUrl (normalizedRec r) := by
  unfold normalizeUrl
  rw [h]
  rfl

theorem foldl_deleteParam_eq (ks : List (List Char)) :
    ∀ q : List (List Char × List Char),
      ks.foldl deleteParam q = q.filter (fun p => decide (∀ k ∈ ks, p.1 ≠ k)) := by
  induction ks with
  | nil =>
    intro q
    simp [List.foldl]
  | cons k ks ih =>
    intro q
    rw [List.foldl_cons, ih (deleteParam q k)]
    unfold deleteParam
    rw [List.filter_filter]
    apply List.filter_congr
    intro p hp
    by_cases hA : p.1 ≠ k <;> by_cases hB : ∀ k' ∈ ks, p.1 ≠ k' <;>
      simp [hA, hB, List.forall_mem_cons]

theorem foldl_deleteParam_skip (k : List Char) (v : List Char)
    (q1 q2 : List (List Char × List Char)) (hk : k ∈ paramsToRemove) :
    paramsToRemove.foldl deleteParam (q1 ++ (k, v) :: q2)
      = paramsToRemove.foldl deleteParam (q1 ++ q2) := by
  rw [foldl_deleteParam_eq, foldl_deleteParam_eq, List.filter_append, List.filter_append,
      List.filter_cons]
  have hfalse : decide (∀ k' ∈ paramsToRemove, (k, v).1 ≠ k') = false := by
    simp only [decide_eq_false_iff_not, not_forall]
    exact ⟨k, hk, by simp⟩
  rw [hfalse]
  simp

theorem foldl_deleteParam_idem (q : List (List Char × List Char)) :
    paramsToRemove.foldl deleteParam (paramsToRemove.foldl deleteParam q)
      = paramsToRemove.foldl deleteParam q := by
  rw [foldl_deleteParam_eq, foldl_deleteParam_eq, List.filter_filter]
  apply List.filter_congr
  intro p hp
  rw [Bool.and_self]

theorem charToNat_ofNat (n : Nat) (h : n.isValidChar) : (Char.ofNat n).toNat = n := by
  unfold Char.ofNat
  rw [dif_pos h]
  rfl

theorem asciiUpper_bounds (c : Char) (h : 'A' ≤ c ∧ c ≤ 'Z') :
    65 ≤ c.toNat ∧ c.toNat ≤ 90 := by
  obtain ⟨h1, h2⟩ := h
  rw [Char.le_def, UInt32.le_def] at h1 h2
  exact ⟨h1, h2⟩

theorem asciiLower_not_upper (c : Char) (h : 'A' ≤ c ∧ c ≤ 'Z') :
    ¬ ('A' ≤ Char.ofNat (c.toNat + 32) ∧ Char.ofNat (c.toNat + 32) ≤ 'Z') := by
  obtain ⟨h1, h2⟩ := asciiUpper_bounds c h
  have hv : (c.toNat + 32).isValidChar := by
    left
    omega
  intro hcon
  obtain ⟨g1, g2⟩ := asciiUpper_bounds _ hcon
  rw [charToNat_ofNat _ hv] at g1 g2
  omega

theorem asciiLower_idem (c : Char) : asciiLower (asciiLower c) = asciiLower c := by
  unfold asciiLower
  by_cases h : 'A' ≤ c ∧ c ≤ 'Z'
  · rw [if_pos h, if_neg (asciiLower_not_upper c h)]
  · rw [if_neg h, if_neg h]

theorem lowerStr_idem (s : List Char) : lowerStr (lowerStr s) = lowerStr s := by
  unfold lowerStr
  rw [List.map_map]
  apply List.map_congr_left
  intro c _
  exact asciiLower_idem c


theorem takeWhile_append_all (p : Char → Bool) (a b : List Char)
    (h : ∀ c ∈ a, p c = true) :
    (a ++ b).takeWhile p = a ++ b.takeWhile p := by
  induction a with
  | nil => simp
  | cons x xs ih =>
    have hx := h x (List.mem_cons_self x xs)
    simp only [List.cons_append, List.takeWhile_cons, hx, if_true]
    rw [ih fun c hc => h c (List.mem_cons_of_mem x hc)]

theorem takeWhile_cons_false (p : Char → Bool) (c : Char) (l : List Char)
    (h : p c = false) : (c :: l).takeWhile p = [] := by
  simp [List.takeWhile_cons, h]

theorem drop_length_append (a b : List Char) : (a ++ b).drop a.length = b :=
  List.drop_left a b

theorem splitOnAmp_ne_nil (s : List Char) : splitOnAmp s ≠ [] := by
  cases s with
  | nil => simp [splitOnAmp]
  | cons c rest =>
    unfold splitOnAmp
    by_cases hc : c = '&'
    · rw [if_pos hc]
      simp
    · rw [if_neg hc]
      cases splitOnAmp rest <;> simp

theorem splitOnAmp_no_amp : ∀ piece : List Char, (∀ c ∈ piece, c ≠ '&') →
    splitOnAmp piece = [piece] := by
  intro piece
  induction piece with
  | nil => intro _; rfl
  | cons c rest ih =>
    intro h
    have hc : c ≠ '&' := h c (List.mem_cons_self c rest)
    unfold splitOnAmp
    rw [if_neg hc, ih fun x hx => h x (List.mem_cons_of_mem c hx)]

theorem splitOnAmp_append (piece rest : List Char) (h : ∀ c ∈ piece, c ≠ '&') :
    splitOnAmp (piece ++ '&' :: rest) = piece :: splitOnAmp rest := by
  induction piece with
  | nil =>
    simp only [List.nil_append]
    conv_lhs => unfold splitOnAmp
    rw [if_pos rfl]
  | cons c piece' ih =>
    have hc : c ≠ '&' := h c (List.mem_cons_self c piece')
    simp only [List.cons_append]
    conv_lhs => unfold splitOnAmp
    rw [if_neg hc, ih fun x hx => h x (List.mem_cons_of_mem c hx)]

theorem splitOnAmp_chars : ∀ s : List Char, ∀ piece ∈ splitOnAmp s,
    ∀ c ∈ piece, c ∈ s ∧ c ≠ '&' := by
  intro s
  induction s with
  | nil =>
    intro piece hp c hc
    simp only [splitOnAmp, List.mem_singleton] at hp
    subst hp
    simp at hc
  | cons x rest ih =>
    intro piece hp c hc
    unfold splitOnAmp at hp
    by_cases hx : x = '&'
    · rw [if_pos hx] at hp
      rcases List.mem_cons.mp hp with rfl | hp'
      · simp at hc
      · obtain ⟨h1, h2⟩ := ih piece hp' c hc
        exact ⟨List.mem_cons_of_mem x h1, h2⟩
    · rw [if_neg hx] at hp
      cases hsp : splitOnAmp rest with
      | nil => exact absurd hsp (splitOnAmp_ne_nil rest)
      | cons p ps =>
        rw [hsp] at hp
        rcases List.mem_cons.mp hp with rfl | hp'
        · rcases List.mem_cons.mp hc with rfl | hc'
          · exact ⟨List.mem_cons_self _ _, hx⟩
          · obtain ⟨h1, h2⟩ := ih p (by rw [hsp]; exact List.mem_cons_self p ps) c hc'
            exact ⟨List.mem_cons_of_mem x h1, h2⟩
        · obtain ⟨h1, h2⟩ := ih piece (by rw [hsp]; exact List.mem_cons_of_mem p hp') c hc
          exact ⟨List.mem_cons_of_mem x h1, h2⟩


theorem serializeQuery_foldl (rest : List (List Char × List Char)) :
    ∀ acc : List Char,
      rest.foldl (fun acc kv => acc ++ '&' :: kv.1 ++ '=' :: kv.2) acc
        = acc ++ (rest.map fun kv => '&' :: kv.1 ++ '=' :: kv.2).flatten := by
  induction rest with
  | nil => intro acc; simp
  | cons kv rest ih =>
    intro acc
    rw [List.foldl_cons, ih, List.map_cons, List.flatten_cons]
    simp [List.append_assoc]

theorem serializeQuery_cons (kv : List Char × List Char)
    (rest : List (List Char × List Char)) :
    serializeQuery (kv :: rest)
      = (kv.1 ++ '=' :: kv.2)
        ++ (rest.map fun p => '&' :: p.1 ++ '=' :: p.2).flatten := by
  unfold serializeQuery
  dsimp only
  rw [serializeQuery_foldl]

theorem serializeQuery_step (kv kv2 : List Char × List Char)
    (rest : List (List Char × List Char)) :
    serializeQuery (kv :: kv2 :: rest)
      = (kv.1 ++ '=' :: kv.2) ++ '&' :: serializeQuery (kv2 :: rest) := by
  rw [serializeQuery_cons, serializeQuery_cons, List.map_cons, List.flatten_cons]
  simp [List.append_assoc]

theorem queryPiece_no_amp (kv : List Char × List Char)
    (hk : ∀ c ∈ kv.1, c ≠ '&') (hv : ∀ c ∈ kv.2, c ≠ '&') :
    ∀ c ∈ kv.1 ++ '=' :: kv.2, c ≠ '&' := by
  intro c hc
  rcases List.mem_append.mp hc with h | h
  · exact hk c h
  · rcases List.mem_cons.mp h with rfl | h'
    · simp
    · exact hv c h'

theorem queryPair_encode (k v : List Char) (hk : ∀ c ∈ k, c ≠ '=') :
    queryPair (k ++ '=' :: v) = (k, v) := by
  unfold queryPair
  rw [takeWhile_append_all _ k ('=' :: v) (by
        intro c hc
        simpa using hk c hc),
      takeWhile_cons_false _ _ _ (by simp)]
  rw [List.append_nil]
  dsimp only
  rw [drop_length_append]
  rfl

theorem splitOnAmp_serialize (q : List (List Char × List Char)) (kv : List Char × List Char)
    (hwf : ∀ p ∈ kv :: q, (∀ c ∈ p.1, c ≠ '&') ∧ (∀ c ∈ p.2, c ≠ '&')) :
    splitOnAmp (serializeQuery (kv :: q))
      = (kv :: q).map fun p => p.1 ++ '=' :: p.2 := by
  induction q generalizing kv with
  | nil =>
    rw [serializeQuery_cons]
    simp only [List.map_nil, List.flatten_nil, List.append_nil, List.map_cons]
    obtain ⟨hk, hv⟩ := hwf kv (List.mem_cons_self kv _)
    rw [splitOnAmp_no_amp _ (queryPiece_no_amp kv hk hv)]
  | cons kv2 rest ih =>
    rw [serializeQuery_step]
    obtain ⟨hk, hv⟩ := hwf kv (List.mem_cons_self kv _)
    rw [splitOnAmp_append _ _ (queryPiece_no_amp kv hk hv)]
    rw [ih kv2 fun p hp => hwf p (List.mem_cons_of_mem kv hp)]
    rfl

theorem parseQuery_roundtrip (q : List (List Char × List Char))
    (hwf : ∀ kv ∈ q, (∀ c ∈ kv.1, c ≠ '&' ∧ c ≠ '=') ∧ (∀ c ∈ kv.2, c ≠ '&')) :
    parseQuery (serializeQuery q) = q := by
  cases q with
  | nil => rfl
  | cons kv rest =>
    unfold parseQuery querySplit
    rw [splitOnAmp_serialize rest kv (fun p hp =>
      ⟨fun c hc => ((hwf p hp).1 c hc).1, (hwf p hp).2⟩)]
    rw [List.filter_eq_self.mpr]
    · rw [List.map_map]
      have : ∀ p ∈ kv :: rest, (queryPair ∘ fun p => p.1 ++ '=' :: p.2) p = id p := by
        intro p hp
        have hk : ∀ c ∈ p.1, c ≠ '=' := fun c hc => ((hwf p hp).1 c hc).2
        simp only [Function.comp_apply, id]
        rw [queryPair_encode p.1 p.2 hk]
      rw [List.map_congr_left this, List.map_id]
    · intro piece hp
      rw [List.mem_map] at hp
      obtain ⟨p, hpmem, rfl⟩ := hp
      simp only [ne_eq, decide_eq_true_eq]
      intro hcontra
      have := congrArg List.length hcontra
      simp at this

theorem takeWhile_all (p : Char → Bool) (l : List Char)
    (h : ∀ c ∈ l, p c = true) : l.takeWhile p = l := by
  have := takeWhile_append_all p l [] h
  simpa using this

theorem dropWhile_head_false (p : Char → Bool) :
    ∀ (l : List Char) (c : Char) (t : List Char),
      List.dropWhile p l = c :: t → p c = false := by
  intro l
  induction l with
  | nil =>
    intro c t h
    simp [List.dropWhile] at h
  | cons x xs ih =>
    intro c t h
    rw [List.dropWhile_cons] at h
    by_cases hx : p x = true
    · rw [if_pos hx] at h
      exact ih c t h
    · rw [if_neg hx] at h
      injection h with h1
      rw [← h1]
      exact Bool.eq_false_iff.mpr hx

theorem drop_takeWhile_length (p : Char → Bool) (l : List Char) :
    l.drop (l.takeWhile p).length = l.dropWhile p := by
  induction l with
  | nil => rfl
  | cons x xs ih =>
    rw [List.takeWhile_cons, List.dropWhile_cons]
    by_cases hx : p x = true
    · rw [if_pos hx, if_pos hx]
      simp only [List.length_cons, List.drop_succ_cons]
      exact ih
    · rw [if_neg hx, if_neg hx]
      rfl

/-- Every character of a serialized query is a separator or comes from a key
or value. -/
theorem serializeQuery_mem (q : List (List Char × List Char)) (c : Char)
    (hc : c ∈ serializeQuery q) :
    c = '&' ∨ c = '=' ∨ ∃ kv ∈ q, c ∈ kv.1 ∨ c ∈ kv.2 := by
  cases q with
  | nil => simp [serializeQuery] at hc
  | cons kv rest =>
    rw [serializeQuery_cons] at hc
    rcases List.mem_append.mp hc with h | h
    · rcases List.mem_append.mp h with h1 | h1
      · exact Or.inr (Or.inr ⟨kv, List.mem_cons_self kv rest, Or.inl h1⟩)
      · rcases List.mem_cons.mp h1 with rfl | h2
        · exact Or.inr (Or.inl rfl)
        · exact Or.inr (Or.inr ⟨kv, List.mem_cons_self kv rest, Or.inr h2⟩)
    · rw [List.mem_flatten] at h
      obtain ⟨piece, hpm, hcp⟩ := h
      rw [List.mem_map] at hpm
      obtain ⟨p, hpq, rfl⟩ := hpm
      rcases List.mem_cons.mp hcp with rfl | h2
      · exact Or.inl rfl
      · rcases List.mem_append.mp h2 with h3 | h3
        · exact Or.inr (Or.inr ⟨p, List.mem_cons_of_mem kv hpq, Or.inl h3⟩)
        · rcases List.mem_cons.mp h3 with rfl | h4
          · exact Or.inr (Or.inl rfl)
          · exact Or.inr (Or.inr ⟨p, List.mem_cons_of_mem kv hpq, Or.inr h4⟩)

/-- Invariants of the records the URL parser produces: a known scheme, a
nonempty host free of host-terminating characters, a path beginning with a
slash and free of path-terminating characters, and query keys/values free
of the separator characters. -/
def UrlWf (r : UrlRec) : Prop :=
  (r.scheme = ['h','t','t','p'] ∨ r.scheme = ['h','t','t','p','s']) ∧
  (r.host ≠ [] ∧ ∀ c ∈ r.host, hostEnd c = false) ∧
  (r.path.head? = some '/' ∧ ∀ c ∈ r.path, pathEnd c = false) ∧
  (∀ kv ∈ r.query,
    (∀ c ∈ kv.1, c ≠ '&' ∧ c ≠ '=' ∧ c ≠ '#') ∧
    (∀ c ∈ kv.2, c ≠ '&' ∧ c ≠ '#'))

/-- The body of `parseUrl` after the scheme prefix has been recognized and
stripped, stated separately so each parsing phase can be reasoned about on
its own. -/
def parseUrlRest (scheme rest : List Char) : Option UrlRec :=
  let host := rest.takeWhile (fun c => !hostEnd c)
  if host = [] then none
  else
    let rest1 := rest.drop host.length
    let path := rest1.takeWhile (fun c => !pathEnd c)
    let rest2 := rest1.drop path.length
    let path := if path = [] then ['/'] else path
    let qs := match rest2 with
      | '?' :: r => r.takeWhile (fun c => !(c == '#'))
      | _ => []
    let rest3 := match rest2 with
      | '?' :: r => r.drop qs.length
      | r => r
    let frag := match rest3 with
      | '#' :: f => some f
      | _ => none
    some ⟨scheme, host, path, parseQuery qs, frag⟩

theorem parseUrl_eq (s : List Char) :
    parseUrl s =
      if ('h' :: 't' :: 't' :: 'p' :: 's' :: ':' :: '/' :: '/' :: []).isPrefixOf s then
        parseUrlRest ['h', 't', 't', 'p', 's'] (s.drop 8)
      else if ('h' :: 't' :: 't' :: 'p' :: ':' :: '/' :: '/' :: []).isPrefixOf s then
        parseUrlRest ['h', 't', 't', 'p'] (s.drop 7)
      else none := by
  unfold parseUrl parseUrlRest
  by_cases h8 : ('h' :: 't' :: 't' :: 'p' :: 's' :: ':' :: '/' :: '/' :: []).isPrefixOf s = true
  · rw [if_pos h8, if_pos h8]
  · rw [if_neg h8, if_neg h8]
    by_cases h7 : ('h' :: 't' :: 't' :: 'p' :: ':' :: '/' :: '/' :: []).isPrefixOf s = true
    · rw [if_pos h7, if_pos h7]
    · rw [if_neg h7, if_neg h7]

theorem parseQuery_wf (s : List Char) (hs : ∀ c ∈ s, c ≠ '#') :
    ∀ kv ∈ parseQuery s,
      (∀ c ∈ kv.1, c ≠ '&' ∧ c ≠ '=' ∧ c ≠ '#') ∧
      (∀ c ∈ kv.2, c ≠ '&' ∧ c ≠ '#') := by
  intro kv hkv
  unfold parseQuery at hkv
  rw [List.mem_map] at hkv
  obtain ⟨piece, hpiece, rfl⟩ := hkv
  unfold querySplit at hpiece
  have hpm := List.mem_of_mem_filter hpiece
  have hchars := splitOnAmp_chars s piece hpm
  unfold queryPair
  dsimp only
  constructor
  · intro c hc
    have hcp : c ∈ piece := List.IsPrefix.mem hc (List.takeWhile_prefix _)
    obtain ⟨hcs, hamp⟩ := hchars c hcp
    refine ⟨hamp, ?_, hs c hcs⟩
    have := List.mem_takeWhile_imp hc
    simpa using this
  · intro c hc
    have hcp : c ∈ piece := List.mem_of_mem_drop (List.mem_of_mem_drop hc)
    obtain ⟨hcs, hamp⟩ := hchars c hcp
    exact ⟨hamp, hs c hcs⟩

theorem parseUrlRest_wf (scheme rest : List Char) (r : UrlRec)
    (hs : scheme = ['h', 't', 't', 'p'] ∨ scheme = ['h', 't', 't', 'p', 's'])
    (h : parseUrlRest scheme rest = some r) : UrlWf r := by
  unfold parseUrlRest at h
  by_cases hh : rest.takeWhile (fun c => !hostEnd c) = []
  · rw [if_pos hh] at h
    exact absurd h (by simp)
  · rw [if_neg hh] at h
    simp only [] at h
    injection h with h
    subst h
    refine ⟨hs, ⟨hh, ?_⟩, ⟨?_, ?_⟩, ?_⟩
    · intro c hc
      have := List.mem_takeWhile_imp hc
      simpa using this
    · dsimp only
      rw [drop_takeWhile_length]
      split
      · rfl
      · rename_i hp0
        rcases hDc : List.dropWhile (fun c => !hostEnd c) rest with _ | ⟨x, xs⟩
        · rw [hDc] at hp0
          simp at hp0
        · rw [hDc] at hp0
          rw [List.takeWhile_cons] at hp0 ⊢
          by_cases hx : (!pathEnd x) = true
          · rw [if_pos hx]
            have hxh := dropWhile_head_false (fun c => !hostEnd c) rest x xs hDc
            have h1 : hostEnd x = true := by simpa using hxh
            have h2 : pathEnd x = false := by simpa using hx
            have hx9 : x = '/' := by
              simp only [hostEnd, decide_eq_true_eq] at h1
              simp only [pathEnd, decide_eq_false_iff_not] at h2
              rcases h1 with h | h | h
              · exact h
              · exact absurd (Or.inl h) h2
              · exact absurd (Or.inr h) h2
            rw [hx9]
            rfl
          · rw [if_neg hx] at hp0
            exact absurd rfl hp0
    · dsimp only
      split
      · intro c hc
        rw [List.mem_singleton] at hc
        subst hc
        rfl
      · intro c hc
        have := List.mem_takeWhile_imp hc
        simpa using this
    · dsimp only
      apply parseQuery_wf
      split
      · intro c hc
        have := List.mem_takeWhile_imp hc
        simpa using this
      · intro c hc
        simp at hc

theorem parseUrl_wf (u : List Char) (r : UrlRec) (h : parseUrl u = some r) :
    UrlWf r := by
  rw [parseUrl_eq] at h
  by_cases h8 : ('h' :: 't' :: 't' :: 'p' :: 's' :: ':' :: '/' :: '/' :: []).isPrefixOf u = true
  · rw [if_pos h8] at h
    exact parseUrlRest_wf _ _ r (Or.inr rfl) h
  · rw [if_neg h8] at h
    by_cases h7 : ('h' :: 't' :: 't' :: 'p' :: ':' :: '/' :: '/' :: []).isPrefixOf u = true
    · rw [if_pos h7] at h
      exact parseUrlRest_wf _ _ r (Or.inl rfl) h
    · rw [if_neg h7] at h
      exact absurd h (by simp)

theorem isPrefixOf_https_self (t : List Char) :
    ('h' :: 't' :: 't' :: 'p' :: 's' :: ':' :: '/' :: '/' :: []).isPrefixOf
      ('h' :: 't' :: 't' :: 'p' :: 's' :: ':' :: '/' :: '/' :: t) = true := by
  simp [List.isPrefixOf]

theorem isPrefixOf_https_http (t : List Char) :
    ('h' :: 't' :: 't' :: 'p' :: 's' :: ':' :: '/' :: '/' :: []).isPrefixOf
      ('h' :: 't' :: 't' :: 'p' :: ':' :: '/' :: '/' :: t) = false := by
  simp [List.isPrefixOf]

theorem isPrefixOf_http_self (t : List Char) :
    ('h' :: 't' :: 't' :: 'p' :: ':' :: '/' :: '/' :: []).isPrefixOf
      ('h' :: 't' :: 't' :: 'p' :: ':' :: '/' :: '/' :: t) = true := by
  simp [List.isPrefixOf]

theorem parseUrlRest_eval (scheme : List Char) (r : UrlRec)
    (hh0 : r.host ≠ []) (hhc : ∀ c ∈ r.host, hostEnd c = false)
    (hpc : ∀ c ∈ r.path, pathEnd c = false)
    (pt : List Char) (hpt : r.path = '/' :: pt)
    (hq : ∀ kv ∈ r.query,
      (∀ c ∈ kv.1, c ≠ '&' ∧ c ≠ '=' ∧ c ≠ '#') ∧
      (∀ c ∈ kv.2, c ≠ '&' ∧ c ≠ '#')) :
    parseUrlRest scheme
      (r.host ++ (r.path ++ (match r.query with
        | [] => ([] : List Char)
        | q => '?' :: serializeQuery q)))
      = some (⟨scheme, r.host, r.path, r.query, none⟩ : UrlRec) := by
  set Q := (match r.query with
    | [] => ([] : List Char)
    | q => '?' :: serializeQuery q) with hQ
  have h1 : (r.host ++ (r.path ++ Q)).takeWhile (fun c => !hostEnd c) = r.host := by
    rw [takeWhile_append_all _ _ _ (fun c hc => by simp [hhc c hc])]
    rw [hpt, List.cons_append,
        takeWhile_cons_false _ _ _ (by decide), List.append_nil]
  unfold parseUrlRest
  simp only []
  rw [h1, if_neg hh0, List.drop_left]
  have h3 : (r.path ++ Q).takeWhile (fun c => !pathEnd c) = r.path := by
    rw [takeWhile_append_all _ _ _ (fun c hc => by simp [hpc c hc])]
    cases hq0 : r.query with
    | nil =>
      have hQv : Q = [] := by rw [hQ, hq0]
      rw [hQv]
      simp
    | cons kv qr =>
      have hQv : Q = '?' :: serializeQuery (kv :: qr) := by rw [hQ, hq0]
      rw [hQv, takeWhile_cons_false _ _ _ (by decide), List.append_nil]
  rw [h3, if_neg (by rw [hpt]; simp)]
  rw [List.drop_left]
  cases hq0 : r.query with
  | nil =>
    have hQv : Q = [] := by rw [hQ, hq0]
    rw [hQv]
    rfl
  | cons kv qr =>
    have hQv : Q = '?' :: serializeQuery (kv :: qr) := by rw [hQ, hq0]
    rw [hQv]
    have h5 : (serializeQuery (kv :: qr)).takeWhile (fun c => !(c == '#'))
        = serializeQuery (kv :: qr) := by
      apply takeWhile_all
      intro c hc
      have hne : c ≠ '#' := by
        rcases serializeQuery_mem _ c hc with h | h | ⟨kv2, hkv2, hck⟩
        · subst h; decide
        · subst h; decide
        · have hw := hq kv2 (by rw [hq0]; exact hkv2)
          rcases hck with hck | hck
          · exact (hw.1 c hck).2.2
          · exact (hw.2 c hck).2
      simp [hne]
    have h6 : parseQuery (serializeQuery (kv :: qr)) = kv :: qr := by
      apply parseQuery_roundtrip
      intro kv2 hkv2
      have hw := hq kv2 (by rw [hq0]; exact hkv2)
      exact ⟨fun c hc => ⟨(hw.1 c hc).1, (hw.1 c hc).2.1⟩, fun c hc => (hw.2 c hc).1⟩
    show some (⟨scheme, r.host, r.path,
        parseQuery ((serializeQuery (kv :: qr)).takeWhile (fun c => !(c == '#'))),
        (match (serializeQuery (kv :: qr)).drop
            ((serializeQuery (kv :: qr)).takeWhile (fun c => !(c == '#'))).length with
          | '#' :: f => some f
          | _ => none)⟩ : UrlRec)
      = some (⟨scheme, r.host, r.path, kv :: qr, none⟩ : UrlRec)
    rw [h5, h6, List.drop_length]

theorem parse_serialize (r : UrlRec) (hwf : UrlWf r) (hf : r.frag = none) :
    parseUrl (serializeUrl r) = some r := by
  obtain ⟨hs, ⟨hh0, hhc⟩, ⟨hph, hpc⟩, hq⟩ := hwf
  obtain ⟨pt, hpt⟩ : ∃ pt, r.path = '/' :: pt := by
    cases hp : r.path with
    | nil =>
      rw [hp] at hph
      exact absurd hph (by simp)
    | cons c t =>
      rw [hp, List.head?_cons] at hph
      injection hph with hc
      exact ⟨t, by rw [hc]⟩
  rcases hs with hs | hs
  · have hser : serializeUrl r
        = 'h' :: 't' :: 't' :: 'p' :: ':' :: '/' :: '/' ::
          (r.host ++ (r.path ++ (match r.query with
            | [] => ([] : List Char)
            | q => '?' :: serializeQuery q))) := by
      unfold serializeUrl
      rw [hs, hf]
      simp [List.append_assoc]
    rw [hser, parseUrl_eq,
        if_neg (by rw [isPrefixOf_https_http]; simp),
        if_pos (isPrefixOf_http_self _),
        show ∀ X : List Char,
          ('h' :: 't' :: 't' :: 'p' :: ':' :: '/' :: '/' :: X).drop 7 = X
          from fun X => rfl]
    rw [parseUrlRest_eval _ r hh0 hhc hpc pt hpt hq]
    rw [← hs, ← hf]
  · have hser : serializeUrl r
        = 'h' :: 't' :: 't' :: 'p' :: 's' :: ':' :: '/' :: '/' ::
          (r.host ++ (r.path ++ (match r.query with
            | [] => ([] : List Char)
            | q => '?' :: serializeQuery q))) := by
      unfold serializeUrl
      rw [hs, hf]
      simp [List.append_assoc]
    rw [hser, parseUrl_eq,
        if_pos (isPrefixOf_https_self _),
        show ∀ X : List Char,
          ('h' :: 't' :: 't' :: 'p' :: 's' :: ':' :: '/' :: '/' :: X).drop 8 = X
          from fun X => rfl]
    rw [parseUrlRest_eval _ r hh0 hhc hpc pt hpt hq]
    rw [← hs, ← hf]

theorem asciiLower_hostEnd (c : Char) (h : hostEnd c = false) :
    hostEnd (asciiLower c) = false := by
  unfold asciiLower
  by_cases hu : 'A' ≤ c ∧ c ≤ 'Z'
  · rw [if_pos hu]
    obtain ⟨h1, h2⟩ := asciiUpper_bounds c hu
    have hv : (c.toNat + 32).isValidChar := by
      left
      omega
    simp only [hostEnd, decide_eq_false_iff_not]
    intro hcon
    have h47 : ('/' : Char).toNat = 47 := rfl
    have h63 : ('?' : Char).toNat = 63 := rfl
    have h35 : ('#' : Char).toNat = 35 := rfl
    rcases hcon with hcc | hcc | hcc
    · have hx := congrArg Char.toNat hcc
      rw [charToNat_ofNat _ hv, h47] at hx
      omega
    · have hx := congrArg Char.toNat hcc
      rw [charToNat_ofNat _ hv, h63] at hx
      omega
    · have hx := congrArg Char.toNat hcc
      rw [charToNat_ofNat _ hv, h35] at hx
      omega
  · rw [if_neg hu]
    exact h

theorem listEndsWith_concat (q : List Char) (c : Char) :
    listEndsWith (q ++ [c]) [c] = true := by
  unfold listEndsWith
  rw [List.reverse_append]
  simp [List.isPrefixOf]

theorem listEndsWith_decomp (p : List Char) (c : Char)
    (h : listEndsWith p [c] = true) : p = p.dropLast ++ [c] := by
  unfold listEndsWith at h
  rw [List.isPrefixOf_iff_prefix] at h
  obtain ⟨t, ht⟩ := h
  have hp : p = t.reverse ++ [c] := by
    rw [← List.reverse_reverse p, ← ht]
    simp
  rw [hp, List.dropLast_concat]

theorem listEndsWith_double (q : List Char) :
    listEndsWith ((q ++ ['/']) ++ ['/']) ['/', '/'] = true := by
  unfold listEndsWith
  simp [List.isPrefixOf]

theorem normalizedRec_wf (r : UrlRec) (h : UrlWf r) : UrlWf (normalizedRec r) := by
  obtain ⟨hs, ⟨hh0, hhc⟩, ⟨hph, hpc⟩, hq⟩ := h
  refine ⟨hs, ⟨?_, ?_⟩, ⟨?_, ?_⟩, ?_⟩
  · show lowerStr r.host ≠ []
    unfold lowerStr
    rw [ne_eq, List.map_eq_nil_iff]
    exact hh0
  · show ∀ c ∈ lowerStr r.host, hostEnd c = false
    intro c hc
    unfold lowerStr at hc
    rw [List.mem_map] at hc
    obtain ⟨c0, hc0, rfl⟩ := hc
    exact asciiLower_hostEnd c0 (hhc c0 hc0)
  · show (if listEndsWith r.path ['/'] ∧ r.path.length > 1
        then r.path.dropLast else r.path).head? = some '/'
    by_cases hE : listEndsWith r.path ['/'] = true ∧ r.path.length > 1
    · rw [if_pos hE]
      cases hp : r.path with
      | nil =>
        rw [hp] at hph
        exact absurd hph (by simp)
      | cons c t =>
        rw [hp, List.head?_cons] at hph
        injection hph with hc
        subst hc
        cases t with
        | nil =>
          rw [hp] at hE
          exact absurd hE.2 (by simp)
        | cons y ys =>
          rw [List.dropLast_cons₂]
          rfl
    · rw [if_neg hE]
      exact hph
  · show ∀ c ∈ (if listEndsWith r.path ['/'] ∧ r.path.length > 1
        then r.path.dropLast else r.path), pathEnd c = false
    by_cases hE : listEndsWith r.path ['/'] = true ∧ r.path.length > 1
    · rw [if_pos hE]
      intro c hc
      exact hpc c (List.mem_of_mem_dropLast hc)
    · rw [if_neg hE]
      exact hpc
  · show ∀ kv ∈ paramsToRemove.foldl deleteParam r.query, _
    rw [foldl_deleteParam_eq]
    intro kv hkv
    exact hq kv (List.mem_of_mem_filter hkv)

theorem normalizedRec_idem (r : UrlRec)
    (hd : ¬(listEndsWith r.path ['/', '/'] = true ∧ r.path.length > 2)) :
    normalizedRec (normalizedRec r) = normalizedRec r := by
  simp only [normalizedRec]
  congr 1
  · exact lowerStr_idem _
  · by_cases hE : listEndsWith r.path ['/'] = true ∧ r.path.length > 1
    · rw [if_pos hE]
      have hdecomp := listEndsWith_decomp _ _ hE.1
      apply if_neg
      intro hcon
      obtain ⟨hc1, hc2⟩ := hcon
      have hdd := listEndsWith_decomp _ _ hc1
      apply hd
      constructor
      · rw [hdecomp, hdd]
        exact listEndsWith_double _
      · rw [hdecomp, List.length_append]
        simp only [List.length_singleton]
        omega
    · rw [if_neg hE, if_neg hE]
  · exact foldl_deleteParam_idem _

/-! ## C7 — normalization equates tracking/fragment/trailing-slash variants -/

/-- Two parsed URLs that agree except that the first carries one extra
deny-listed tracking query parameter. -/
def differOnlyByTracking (r1 r2 : UrlRec) : Prop :=
  r2.scheme = r1.scheme ∧ r2.host = r1.host ∧ r2.path = r1.path ∧
  r2.frag = r1.frag ∧
  ∃ k v q1 q2, k ∈ paramsToRemove ∧
    r1.query = q1 ++ (k, v) :: q2 ∧ r2.query = q1 ++ q2

/-- Two parsed URLs that agree except on the fragment. -/
def differOnlyByFragment (r1 r2 : UrlRec) : Prop :=
  r2.scheme = r1.scheme ∧ r2.host = r1.host ∧ r2.path = r1.path ∧
  r2.query = r1.query

/-- Two parsed URLs that agree except that the second has one extra
trailing slash on a non-root path. -/
def differOnlyByTrailingSlash (r1 r2 : UrlRec) : Prop :=
  r2.scheme = r1.scheme ∧ r2.host = r1.host ∧
  r2.path = r1.path ++ ['/'] ∧ r1.path ≠ ['/'] ∧
  r2.query = r1.query ∧ r2.frag = r1.frag

def c7uA : List Char := "http://e.com/a/".toList

def c7rA : UrlRec :=
  ⟨"http".toList, "e.com".toList, "/a/".toList, [], none⟩

def c7uB : List Char := "http://e.com/a//".toList

def c7rB : UrlRec :=
  ⟨"http".toList, "e.com".toList, "/a//".toList, [], none⟩

/-- C7 counterexample: `http://e.com/a/` and `http://e.com/a//` are parseable
URLs differing only by a single trailing slash on a non-root path, yet they
normalize to `http://e.com/a` and `http://e.com/a/` respectively — the source
strips exactly one trailing slash, so adding a slash to a path that already
ends in one is not erased. -/
theorem normalizeUrl_trailing_slash_not_equal :
    parseUrl c7uA = some c7rA ∧ parseUrl c7uB = some c7rB ∧
    differOnlyByTrailingSlash c7rA c7rB ∧
    normalizeUrl c7uA ≠ normalizeUrl c7uB := by
  unfold differOnlyByTrailingSlash
  decide

/-- C7 (amended): for parseable URLs, `normalizeUrl` identifies two URLs that
differ only by one deny-listed tracking parameter, or only by a fragment; it
identifies two URLs that differ only by a single trailing slash on a non-root
path provided the shorter path does not itself already end in a slash. -/
theorem normalizeUrl_equiv (u1 u2 : List Char) (r1 r2 : UrlRec)
    (hp1 : parseUrl u1 = some r1) (hp2 : parseUrl u2 = some r2) :
    (differOnlyByTracking r1 r2 → normalizeUrl u1 = normalizeUrl u2) ∧
    (differOnlyByFragment r1 r2 → normalizeUrl u1 = normalizeUrl u2) ∧
    (differOnlyByTrailingSlash r1 r2 → listEndsWith r1.path ['/'] = false →
      normalizeUrl u1 = normalizeUrl u2) := by
  rw [normalizeUrl_of_parse_some u1 r1 hp1, normalizeUrl_of_parse_some u2 r2 hp2]
  refine ⟨?_, ?_, ?_⟩
  · rintro ⟨hsch, hh, hp, hfr, k, v, q1, q2, hk, hq1, hq2⟩
    have heq : normalizedRec r1 = normalizedRec r2 := by
      simp only [normalizedRec]
      rw [hsch, hh, hp, hq1, hq2, foldl_deleteParam_skip k v q1 q2 hk]
    rw [heq]
  · rintro ⟨hsch, hh, hp, hq⟩
    have heq : normalizedRec r1 = normalizedRec r2 := by
      simp only [normalizedRec]
      rw [hsch, hh, hp, hq]
    rw [heq]
  · rintro ⟨hsch, hh, hp, hroot, hq, hfr⟩ hend
    have h1 : r1.path ≠ [] := by
      obtain ⟨_, _, ⟨hph, _⟩, _⟩ := parseUrl_wf u1 r1 hp1
      intro hnil
      rw [hnil] at hph
      exact absurd hph (by simp)
    have hE2 : listEndsWith (r1.path ++ ['/']) ['/'] = true ∧
        (r1.path ++ ['/']).length > 1 := by
      refine ⟨listEndsWith_concat _ _, ?_⟩
      rw [List.length_append]
      have := List.length_pos.mpr h1
      simp only [List.length_singleton]
      omega
    have hE1 : ¬(listEndsWith r1.path ['/'] = true ∧ r1.path.length > 1) := by
      intro hcon
      rw [hend] at hcon
      exact absurd hcon.1 (by simp)
    have heq : normalizedRec r1 = normalizedRec r2 := by
      simp only [normalizedRec]
      rw [hsch, hh, hp, hq, if_neg hE1, if_pos hE2, List.dropLast_concat]
    rw [heq]

def c7w1 : List Char := "https://ex.com/p?utm_source=a&id=1".toList

def c7s1 : UrlRec :=
  ⟨"https".toList, "ex.com".toList, "/p".toList,
   [("utm_source".toList, "a".toList), ("id".toList, "1".toList)], none⟩

def c7w2 : List Char := "https://ex.com/p?id=1".toList

def c7s2 : UrlRec :=
  ⟨"https".toList, "ex.com".toList, "/p".toList,
   [("id".toList, "1".toList)], none⟩

/-- C7 witness: the equivalence theorem applied to the concrete pair
`https://ex.com/p?utm_source=a&id=1` / `https://ex.com/p?id=1`. -/
theorem normalizeUrl_equiv_witness :
    parseUrl c7w1 = some c7s1 ∧ parseUrl c7w2 = some c7s2 ∧
    ((differOnlyByTracking c7s1 c7s2 → normalizeUrl c7w1 = normalizeUrl c7w2) ∧
     (differOnlyByFragment c7s1 c7s2 → normalizeUrl c7w1 = normalizeUrl c7w2) ∧
     (differOnlyByTrailingSlash c7s1 c7s2 →
       listEndsWith c7s1.path ['/'] = false →
       normalizeUrl c7w1 = normalizeUrl c7w2)) :=
  ⟨by decide, by decide,
   normalizeUrl_equiv c7w1 c7w2 c7s1 c7s2 (by decide) (by decide)⟩

/-! ## C10 — idempotence of normalization -/

def c10u : List Char := "https://e.com/a//".toList

/-- C10 counterexample: `https://e.com/a//` normalizes to
`https://e.com/a/`, which normalizes further to `https://e.com/a` — one
round of the source's single-trailing-slash strip is not idempotent on
paths ending in a double slash. -/
theorem normalizeUrl_not_idempotent :
    normalizeUrl (normalizeUrl c10u) ≠ normalizeUrl c10u := by
  decide

/-- C10 (amended): `normalizeUrl` is idempotent on every unparseable input,
and on every parseable input whose path does not end in a double slash
(with length above two); the double-slash paths are exactly where the
single-trailing-slash strip fails to be idempotent. -/
theorem normalizeUrl_idem (u : List Char) :
    (parseUrl u = none → normalizeUrl (normalizeUrl u) = normalizeUrl u) ∧
    (∀ r, parseUrl u = some r →
      ¬(listEndsWith r.path ['/', '/'] = true ∧ r.path.length > 2) →
      normalizeUrl (normalizeUrl u) = normalizeUrl u) := by
  constructor
  · intro h
    have h1 : normalizeUrl u = u := by
      unfold normalizeUrl
      rw [h]
    rw [h1, h1]
  · intro r hp hd
    have hwf := parseUrl_wf u r hp
    rw [normalizeUrl_of_parse_some u r hp]
    have hps : parseUrl (serializeUrl (normalizedRec r)) = some (normalizedRec r) :=
      parse_serialize _ (normalizedRec_wf r hwf) rfl
    rw [normalizeUrl_of_parse_some _ _ hps, normalizedRec_idem r hd]

end DiscordRadio
